import Mathlib

/-!
Shallow embedding of the engine-selection / filter-compilation core of
`src/rag/tools/search_tools.py` (the `select_and_compile` pipeline: pattern
scoring, tie-break selection, and the date/owner/company detect/build/strip
filter rules), together with proofs about the claims of the specification.

Strings are modelled as Lean `String` / `List Char`.  The Python `re`
patterns that the source uses are hand-compiled, pattern by pattern, into
deterministic matchers over `List Char`; each matcher documents the regex it
embeds, and follows Python's leftmost-search and ordered-alternation
semantics (all alternations in these particular patterns are first-char
disjoint or fall back as coded, so the compiled matchers are faithful).
The character repertoire modelled for `\w`, `\s`, `str.lower` and
`str.strip` is ASCII plus Hangul syllables (U+AC00..U+D7A3), which covers
every character the source's patterns and registries mention.
-/

namespace SearchTools

/-- ASCII decimal digit, as matched by `\d` on the modelled repertoire. -/
def isDigitC (c : Char) : Bool := '0' ≤ c && c ≤ '9'

/-- Whitespace as matched by Python `\s` / stripped by `str.strip`
(ASCII whitespace repertoire). -/
def isSpaceC (c : Char) : Bool :=
  c = ' ' || c = '\t' || c = '\n' || c = '\x0d' || c = '\x0b' || c = '\x0c'

/-- Word character for Python `\b` word boundaries (`\w`): digits, ASCII
letters, underscore, and Hangul syllables. -/
def isWordC (c : Char) : Bool :=
  isDigitC c || ('a' ≤ c && c ≤ 'z') || ('A' ≤ c && c ≤ 'Z') || c = '_' ||
    ('가' ≤ c && c ≤ '힣')

/-- Token character class of the owner detector: `[가-힣A-Za-z0-9_]`. -/
def isOwnerTokC (c : Char) : Bool :=
  ('가' ≤ c && c ≤ '힣') || ('A' ≤ c && c ≤ 'Z') || ('a' ≤ c && c ≤ 'z') ||
    isDigitC c || c = '_'

/-- Token character class of the company detector: `[가-힣A-Za-z0-9_()\-]`. -/
def isCompanyTokC (c : Char) : Bool :=
  isOwnerTokC c || c = '(' || c = ')' || c = '-'

/-- Python's `\b`: a word boundary holds between two (optional) adjacent
characters when exactly one side is a word character. -/
def wordOpt : Option Char → Bool
  | none => false
  | some c => isWordC c

def boundaryB (prev next : Option Char) : Bool := wordOpt prev != wordOpt next

/-- `str.strip()` on char lists: drop whitespace from both ends. -/
def stripChars (l : List Char) : List Char :=
  ((l.dropWhile isSpaceC).reverse.dropWhile isSpaceC).reverse

/-- Python `str.strip()`. -/
def pyStrip (s : String) : String := ⟨stripChars s.data⟩

/-- `_clean` from the source: `(s or "").strip()` (on an actual string the
`or ""` is the identity). -/
def clean (s : String) : String := pyStrip s

/-- Python `str.lower()` on the modelled repertoire (ASCII case folding;
Hangul and punctuation are unaffected). -/
def pyLowerC (c : Char) : Char :=
  if 'A' ≤ c && c ≤ 'Z' then Char.ofNat (c.toNat + 32) else c

def pyLower (s : String) : String := ⟨s.data.map pyLowerC⟩

/-- Python `str.replace(pat, rep)` on char lists, for a non-empty `pat`:
scan left to right, replacing non-overlapping occurrences.  Each step
consumes at least one character, so the scan is driven by a fuel argument
initialised to the input length (keeping the recursion structural and the
function kernel-evaluable); with non-empty `pat`,
`List.drop (pat.length - 1) cs = List.drop pat.length (c :: cs)`. -/
def pyReplaceGo (pat rep : List Char) : Nat → List Char → List Char
  | _, [] => []
  | 0, l => l
  | fuel + 1, c :: cs =>
    if pat ≠ [] ∧ pat.isPrefixOf (c :: cs) then
      rep ++ pyReplaceGo pat rep fuel (List.drop (pat.length - 1) cs)
    else
      c :: pyReplaceGo pat rep fuel cs

def pyReplaceL (pat rep l : List Char) : List Char := pyReplaceGo pat rep l.length l

def pyReplace (pat rep s : String) : String := ⟨pyReplaceL pat.data rep.data s.data⟩

/-- Greedy `\s*`: the maximal whitespace run and the remainder. -/
def spanSpaces (l : List Char) : List Char × List Char :=
  (l.takeWhile isSpaceC, l.dropWhile isSpaceC)

/-- Numeric value of a decimal digit character. -/
def dval (c : Char) : Nat := c.toNat - '0'.toNat

/-- Month alternation of the ISO pattern: `(0[1-9]|1[0-2])` (two chars). -/
def monthOkC (a b : Char) : Bool :=
  (a = '0' && '1' ≤ b && b ≤ '9') || (a = '1' && '0' ≤ b && b ≤ '2')

/-- Day alternation of the ISO pattern: `(0[1-9]|[12]\d|3[01])` (two chars). -/
def dayOkC (a b : Char) : Bool :=
  (a = '0' && '1' ≤ b && b ≤ '9') || ((a = '1' || a = '2') && isDigitC b) ||
    (a = '3' && (b = '0' || b = '1'))

/-- `iso_pat = (20\d{2})-(0[1-9]|1[0-2])-(0[1-9]|[12]\d|3[01])` matched at
the head of the list: a fixed ten-character match (every alternation branch
has the same length and the branches are first-char disjoint, so the match
is deterministic).  Returns the matched characters and the remainder. -/
def isoAt : List Char → Option (List Char × List Char)
  | '2' :: '0' :: y1 :: y2 :: '-' :: a :: b :: '-' :: c :: d :: rest =>
    if isDigitC y1 && isDigitC y2 && monthOkC a b && dayOkC c d then
      some (['2', '0', y1, y2, '-', a, b, '-', c, d], rest)
    else none
  | _ => none

/-- The connector alternation `(?:~|∼|-|–|—|to|부터)` of the range pattern,
with `re.IGNORECASE` (which only affects `to`).  All alternatives have
distinct first characters, so at most one can match at a given position. -/
def connAt : List Char → Option (List Char × List Char)
  | '~' :: r => some (['~'], r)
  | '∼' :: r => some (['∼'], r)
  | '-' :: r => some (['-'], r)
  | '–' :: r => some (['–'], r)
  | '—' :: r => some (['—'], r)
  | t :: o :: r =>
    if (t = 't' || t = 'T') && (o = 'o' || o = 'O') then some ([t, o], r)
    else if t = '부' && o = '터' then some ([t, o], r)
    else none
  | _ => none

/-- Rule 1 of `_detect_date`:
`\b({iso})\b\s*(?:~|∼|-|–|—|to|부터)\s*\b({iso})\b(?:\s*(?:까지)?)`
tried at the head of `l`, with `prev` the character before `l`.  Returns
(start chars, end chars, raw matched span).  Greedy `\s*` is equivalent to
Python's backtracking here: no connector begins with whitespace and the
second date begins with a word character, so shorter whitespace runs leave
a space where a non-space is required (and the `\b` between two spaces is
false). -/
def rangeAt (prev : Option Char) (l : List Char) :
    Option (List Char × List Char × List Char) :=
  if boundaryB prev l.head? then
    match isoAt l with
    | some (s, r1) =>
      -- `\b` after the first date: its last char is a digit (word), so the
      -- next char must be absent or non-word.
      if wordOpt r1.head? then none
      else
        let (sp1, r2) := spanSpaces r1
        match connAt r2 with
        | some (conn, r3) =>
          let (sp2, r4) := spanSpaces r3
          -- `\b` before the second date: the preceding char is the last of
          -- `sp2` if any, else the last of `conn`.
          let prevc : Option Char := sp2.getLast?.orElse (fun _ => conn.getLast?)
          if boundaryB prevc r4.head? then
            match isoAt r4 with
            | some (e, r5) =>
              if wordOpt r5.head? then none
              else
                let (sp3, r6) := spanSpaces r5
                let kkaji : List Char :=
                  if ['까', '지'].isPrefixOf r6 then ['까', '지'] else []
                some (s, e, s ++ sp1 ++ conn ++ sp2 ++ e ++ sp3 ++ kkaji)
            | none => none
          else none
        | none => none
    | none => none
  else none

/-- Rule 2 of `_detect_date`: `\b{iso_pat}\b` at the head of `l`. -/
def singleAt (prev : Option Char) (l : List Char) : Option (List Char) :=
  if boundaryB prev l.head? then
    match isoAt l with
    | some (s, r1) => if wordOpt r1.head? then none else some s
    | none => none
  else none

/-- `re.search` position scan for matchers that consult the preceding
character (for `\b`): try each start position left to right. -/
def searchPosB (f : Option Char → List Char → Option α) :
    Option Char → List Char → Option α
  | _, [] => none
  | prev, c :: cs => (f prev (c :: cs)).orElse (fun _ => searchPosB f (some c) cs)

/-- `re.search` position scan for matchers with no leading `\b`. -/
def searchPos (f : List Char → Option α) : List Char → Option α
  | [] => none
  | c :: cs => (f (c :: cs)).orElse (fun _ => searchPos f cs)

/-- The month alternation `(1[0-2]|[1-9])` of the localized date patterns,
with Python's ordered alternation: the two-digit branch is tried first and,
if the continuation `k` fails, the one-digit branch is retried on the same
input (backtracking).  `k` receives the month value, the matched chars and
the remainder. -/
def monthAlt (k : Nat → List Char → List Char → Option α) (r : List Char) :
    Option α :=
  (match r with
   | '1' :: x :: r4 => if '0' ≤ x && x ≤ '2' then k (10 + dval x) ['1', x] r4 else none
   | _ => none).orElse (fun _ =>
  match r with
  | a :: r4 => if '1' ≤ a && a ≤ '9' then k (dval a) [a] r4 else none
  | _ => none)

/-- `\s*일` after the day digits of rule 3; returns (consumed, rest). -/
def ilTail (r : List Char) : Option (List Char × List Char) :=
  let (sp, r1) := spanSpaces r
  match r1 with
  | '일' :: r2 => some (sp ++ ['일'], r2)
  | _ => none

/-- The day part `(3[01]|[12]\d|[1-9])\s*일` of rule 3, with Python's
ordered alternation and backtracking to the shorter branch when the tail
fails.  Returns (day value, consumed chars, rest). -/
def dayIl (r : List Char) : Option (Nat × List Char × List Char) :=
  let alt1 : Option (Nat × List Char × List Char) :=
    match r with
    | '3' :: x :: r4 =>
      if x = '0' || x = '1' then
        (ilTail r4).map (fun (t, r6) => (30 + dval x, '3' :: x :: t, r6))
      else none
    | _ => none
  let alt2 : Option (Nat × List Char × List Char) :=
    match r with
    | a :: x :: r4 =>
      if (a = '1' || a = '2') && isDigitC x then
        (ilTail r4).map (fun (t, r6) => (10 * dval a + dval x, a :: x :: t, r6))
      else none
    | _ => none
  let alt3 : Option (Nat × List Char × List Char) :=
    match r with
    | a :: r4 =>
      if '1' ≤ a && a ≤ '9' then (ilTail r4).map (fun (t, r6) => (dval a, a :: t, r6))
      else none
    | _ => none
  alt1.orElse (fun _ => alt2.orElse (fun _ => alt3))

/-- Rule 3 of `_detect_date`:
`(20\d{2})\s*년\s*(1[0-2]|[1-9])\s*월\s*(3[01]|[12]\d|[1-9])\s*일`
at the head of `l` (no word boundaries in this pattern).  Returns
(year, month, day, raw matched span). -/
def m1At (l : List Char) : Option (Nat × Nat × Nat × List Char) :=
  match l with
  | '2' :: '0' :: y1 :: y2 :: r =>
    if isDigitC y1 && isDigitC y2 then
      let (sp1, r1) := spanSpaces r
      match r1 with
      | '년' :: r2 =>
        let (sp2, r3) := spanSpaces r2
        monthAlt (fun mo mchars r4 =>
          let (sp3, r5) := spanSpaces r4
          match r5 with
          | '월' :: r6 =>
            let (sp4, r7) := spanSpaces r6
            (dayIl r7).map (fun p =>
              (2000 + 10 * dval y1 + dval y2, mo, p.1,
               ['2', '0', y1, y2] ++ sp1 ++ ['년'] ++ sp2 ++ mchars ++ sp3 ++
                 ['월'] ++ sp4 ++ p.2.1))
          | _ => none) r3
      | _ => none
    else none
  | _ => none

/-- The negative-lookahead body `\s*\d+\s*일` of rule 4.  Maximal munch is
equivalent to Python's backtracking: a shorter `\d+` leaves a digit where
`일` is required, and a shorter `\s*` leaves a space where a digit or `일`
is required. -/
def dayAhead (r : List Char) : Bool :=
  let r1 := r.dropWhile isSpaceC
  let ds := r1.takeWhile isDigitC
  let r2 := r1.dropWhile isDigitC
  let r3 := r2.dropWhile isSpaceC
  !ds.isEmpty && r3.head? == some '일'

/-- Rule 4 of `_detect_date`:
`(20\d{2})\s*년\s*(1[0-2]|[1-9])\s*월(?!\s*\d+\s*일)` at the head of `l`.
Returns (year, month, raw matched span).  A positive lookahead after the
two-digit month branch makes Python backtrack into the one-digit branch,
which `monthAlt` reproduces. -/
def m2At (l : List Char) : Option (Nat × Nat × List Char) :=
  match l with
  | '2' :: '0' :: y1 :: y2 :: r =>
    if isDigitC y1 && isDigitC y2 then
      let (sp1, r1) := spanSpaces r
      match r1 with
      | '년' :: r2 =>
        let (sp2, r3) := spanSpaces r2
        monthAlt (fun mo mchars r4 =>
          let (sp3, r5) := spanSpaces r4
          match r5 with
          | '월' :: r6 =>
            if dayAhead r6 then none
            else
              some (2000 + 10 * dval y1 + dval y2, mo,
                    ['2', '0', y1, y2] ++ sp1 ++ ['년'] ++ sp2 ++ mchars ++ sp3 ++ ['월'])
          | _ => none) r3
      | _ => none
    else none
  | _ => none

/-- Gregorian leap year, as used by Python's `calendar`. -/
def isLeap (y : Nat) : Bool := y % 4 = 0 && (y % 100 ≠ 0 || y % 400 = 0)

/-- `calendar.monthrange(y, m)[1]`: the number of days in the month. -/
def lastDayOfMonth (y m : Nat) : Nat :=
  if m = 2 then (if isLeap y then 29 else 28)
  else if m = 4 || m = 6 || m = 9 || m = 11 then 30
  else 31

/-- Python `f"{n:02d}"` for the values arising here. -/
def pad2 (n : Nat) : String := if n < 10 then "0" ++ toString n else toString n

/-- Python `f"{n:04d}"` for the values arising here. -/
def pad4 (n : Nat) : String :=
  if n < 10 then "000" ++ toString n
  else if n < 100 then "00" ++ toString n
  else if n < 1000 then "0" ++ toString n
  else toString n

/-- `_month_range`: first and last day of the month, ISO-formatted. -/
def month_range (y m : Nat) : String × String :=
  (pad4 y ++ "-" ++ pad2 m ++ "-01",
   pad4 y ++ "-" ++ pad2 m ++ "-" ++ pad2 (lastDayOfMonth y m))

/-- The value dictionary produced by `_detect_date`
(`{"type": ..., "start": ..., "end": ..., "raw": ...}`).  The field `stop`
models the dict key `"end"` (`end` is a Lean keyword). -/
structure DateVal where
  type : String
  start : String
  stop : String
  raw : String
deriving DecidableEq, Repr

/-- `_detect_date`: clean the query, then try the four rules in priority
order, first match wins. -/
def detect_date (q : String) : Option DateVal :=
  let qc := (clean q).data
  match searchPosB rangeAt none qc with
  | some (s, e, raw) => some ⟨"range", ⟨s⟩, ⟨e⟩, ⟨raw⟩⟩
  | none =>
  match searchPosB singleAt none qc with
  | some iso => some ⟨"day", ⟨iso⟩, ⟨iso⟩, ⟨iso⟩⟩
  | none =>
  match searchPos m1At qc with
  | some (y, mo, d, raw) =>
    some ⟨"day", pad4 y ++ "-" ++ pad2 mo ++ "-" ++ pad2 d,
          pad4 y ++ "-" ++ pad2 mo ++ "-" ++ pad2 d, ⟨raw⟩⟩
  | none =>
  match searchPos m2At qc with
  | some (y, mo, raw) => some ⟨"month", (month_range y mo).1, (month_range y mo).2, ⟨raw⟩⟩
  | none => none

/-- `_build_date_filter`. -/
def build_date_filter (v : DateVal) : String :=
  "date >= \"" ++ v.start ++ "\" AND date <= \"" ++ v.stop ++ "\""

/-- `_strip_date`: `_clean(q.replace(raw, "")) if raw else q`. -/
def strip_date (q : String) (v : DateVal) : String :=
  if v.raw ≠ "" then clean (pyReplace v.raw "" q) else q

/-- `\s*[:：]\s*(<token>+)` after the keyword of the owner/company
detectors; returns the captured token (greedy `\s*` is deterministic here:
neither the colon nor a token character is whitespace). -/
def tokenAfterColon (tokC : Char → Bool) (r : List Char) : Option (List Char) :=
  let r1 := r.dropWhile isSpaceC
  match r1 with
  | c :: r2 =>
    if c = ':' || c = '：' then
      let r3 := r2.dropWhile isSpaceC
      let tok := r3.takeWhile tokC
      if tok.isEmpty then none else some tok
    else none
  | [] => none

/-- The owner pattern `(담당자|작성자)\s*[:：]\s*([가-힣A-Za-z0-9_]+)` at the
head of `l` (the keyword alternatives are first-char disjoint); returns
group 2. -/
def ownerAt (l : List Char) : Option (List Char) :=
  if ['담', '당', '자'].isPrefixOf l then tokenAfterColon isOwnerTokC (l.drop 3)
  else if ['작', '성', '자'].isPrefixOf l then tokenAfterColon isOwnerTokC (l.drop 3)
  else none

/-- `_detect_owner`: `re.search` then `m.group(2).strip()`. -/
def detect_owner (q : String) : Option String :=
  (searchPos ownerAt q.data).map (fun t => pyStrip ⟨t⟩)

/-- The company pattern `(거래처|회사)\s*[:：]\s*([가-힣A-Za-z0-9_()\-]+)` at
the head of `l`; returns group 2. -/
def companyAt (l : List Char) : Option (List Char) :=
  if ['거', '래', '처'].isPrefixOf l then tokenAfterColon isCompanyTokC (l.drop 3)
  else if ['회', '사'].isPrefixOf l then tokenAfterColon isCompanyTokC (l.drop 2)
  else none

/-- `_detect_company`. -/
def detect_company (q : String) : Option String :=
  (searchPos companyAt q.data).map (fun t => pyStrip ⟨t⟩)

/-- `_build_owner_filter`: `v.replace('"', '\\"')` then `owner: ANY("<v>")`. -/
def build_owner_filter (v : String) : String :=
  "owner: ANY(\"" ++ pyReplace "\"" "\\\"" v ++ "\")"

/-- `_build_company_filter`. -/
def build_company_filter (v : String) : String :=
  "company: ANY(\"" ++ pyReplace "\"" "\\\"" v ++ "\")"

/-- Greedy `\s*` followed by the literal `v` (`re.escape(v)` makes the
detected value a literal): Python backtracks from the longest whitespace
run, so the longest `k ≤` (leading whitespace) with `v` matching after `k`
skipped characters wins.  Returns the consumed length. -/
def spacesThenLitGo (v r : List Char) : Nat → Option Nat
  | 0 => if v.isPrefixOf r then some v.length else none
  | k + 1 =>
    if v.isPrefixOf (r.drop (k + 1)) then some (k + 1 + v.length)
    else spacesThenLitGo v r k

def spacesThenLit (v r : List Char) : Option Nat :=
  spacesThenLitGo v r (r.takeWhile isSpaceC).length

/-- The stripper pattern `(kw1|kw2)\s*[:：]\s*<literal v>` at the head of
`l`; returns the match length.  Used by `_strip_owner` / `_strip_company`
(`re.sub(..., "", q)`). -/
def stripMatchLen (kw1 kw2 v l : List Char) : Option Nat :=
  let afterKw : Option (Nat × List Char) :=
    if kw1.isPrefixOf l then some (kw1.length, l.drop kw1.length)
    else if kw2.isPrefixOf l then some (kw2.length, l.drop kw2.length)
    else none
  match afterKw with
  | none => none
  | some (n, r) =>
    let sp1 := (r.takeWhile isSpaceC).length
    let r1 := r.dropWhile isSpaceC
    match r1 with
    | c :: r2 =>
      if c = ':' || c = '：' then
        (spacesThenLit v r2).map (fun m => n + sp1 + 1 + m)
      else none
    | [] => none

/-- `re.sub(pat, "", s)` for a matcher `f` giving the match length at a
position: scan left to right, delete non-overlapping matches.  (On a
zero-width match Python inserts the empty replacement and advances one
character, which equals keeping the character; the matchers used here
always consume at least four characters.)  As with `pyReplaceGo`, each step
consumes at least one character, so the scan is driven by a fuel argument
initialised to the input length; `List.drop n cs = List.drop (n + 1) (c :: cs)`. -/
def reSubGo (f : List Char → Option Nat) : Nat → List Char → List Char
  | _, [] => []
  | 0, l => l
  | fuel + 1, c :: cs =>
    match f (c :: cs) with
    | some (n + 1) => reSubGo f fuel (List.drop n cs)
    | some 0 => c :: reSubGo f fuel cs
    | none => c :: reSubGo f fuel cs

def reSubDel (f : List Char → Option Nat) (l : List Char) : List Char :=
  reSubGo f l.length l

/-- `_strip_owner`. -/
def strip_owner (q v : String) : String :=
  clean ⟨reSubDel (stripMatchLen ['담', '당', '자'] ['작', '성', '자'] v.data) q.data⟩

/-- `_strip_company`. -/
def strip_company (q v : String) : String :=
  clean ⟨reSubDel (stripMatchLen ['거', '래', '처'] ['회', '사'] v.data) q.data⟩

/-!  Registry pattern sets.  Every literal registry pattern is of the form
`\b<word>\b` with `<word>` consisting only of word characters; the three
numeric patterns of the work set are compiled separately. -/

inductive Pat where
  | lit (s : String)   -- `\b<s>\b`
  | yearPat            -- `\b202\d년\b`
  | isoPat             -- `\b20\d{2}-\d{2}-\d{2}\b`
  | monPat             -- `\b\d{1,2}월\b`
deriving DecidableEq, Repr

/-- `\b<lit>\b` at the head of `l` for a literal of word characters: the
boundaries reduce to "previous char non-word" and "next char non-word". -/
def litAt (lit : List Char) (prev : Option Char) (l : List Char) : Bool :=
  !wordOpt prev && lit.isPrefixOf l && !wordOpt (l.drop lit.length).head?

def yearAtB (prev : Option Char) (l : List Char) : Bool :=
  match l with
  | '2' :: '0' :: '2' :: d :: '년' :: r =>
    !wordOpt prev && isDigitC d && !wordOpt r.head?
  | _ => false

def isoScoreAt (prev : Option Char) (l : List Char) : Bool :=
  match l with
  | '2' :: '0' :: a :: b :: '-' :: c :: d :: '-' :: e :: f :: r =>
    !wordOpt prev && isDigitC a && isDigitC b && isDigitC c && isDigitC d &&
      isDigitC e && isDigitC f && !wordOpt r.head?
  | _ => false

/-- `\b\d{1,2}월\b`: greedy `\d{1,2}`; if two digits match but `월` does not
follow, the one-digit retry needs the second char to be `월`, which a digit
is not, so the if-chain reproduces the backtracking. -/
def monScoreAt (prev : Option Char) (l : List Char) : Bool :=
  !wordOpt prev &&
    match l with
    | a :: b :: rest =>
      if !isDigitC a then false
      else if isDigitC b then
        match rest with
        | '월' :: r2 => !wordOpt r2.head?
        | _ => false
      else if b = '월' then !wordOpt rest.head?
      else false
    | _ => false

/-- Boolean `re.search` position scan (for the scoring patterns). -/
def searchB (f : Option Char → List Char → Bool) : Option Char → List Char → Bool
  | _, [] => false
  | prev, c :: cs => f prev (c :: cs) || searchB f (some c) cs

/-- `re.search(p, q_for_match, flags=re.IGNORECASE) is not None`: the query
is already lowered, and lowering the literal as well makes the ASCII
case-insensitive literals (`CLI`, `VMware`, ...) match. -/
def patAt (p : Pat) : Option Char → List Char → Bool :=
  match p with
  | .lit s => litAt (s.data.map pyLowerC)
  | .yearPat => yearAtB
  | .isoPat => isoScoreAt
  | .monPat => monScoreAt

def patMatch (p : Pat) (text : List Char) : Bool := searchB (patAt p) none text

def WORK_PATTERNS : List Pat :=
  [.lit "업무", .lit "업무일지", .lit "일지", .lit "작업", .lit "방문", .lit "점검",
   .lit "회의", .lit "미팅", .lit "일정", .lit "출장", .lit "리포트", .lit "보고서",
   .lit "거래처", .lit "담당자", .lit "장소", .lit "특이사항",
   .yearPat, .isoPat,
   .monPat]

def MANUAL_PATTERNS : List Pat :=
  [.lit "매뉴얼", .lit "가이드", .lit "설명서", .lit "구성", .lit "설정", .lit "설치",
   .lit "업그레이드", .lit "버전", .lit "에러", .lit "오류", .lit "트러블슈팅",
   .lit "CLI", .lit "명령어", .lit "파라미터", .lit "Release", .lit "KB",
   .lit "VMware", .lit "Cisco", .lit "EMC", .lit "Unity", .lit "MDS"]

/-- A detected field value: the date rule produces the `_detect_date` dict,
the owner/company rules produce strings. -/
inductive DetVal where
  | dateV (d : DateVal)
  | strV (s : String)
deriving DecidableEq, Repr

/-- `FilterRule` (the `build`/`strip` functions of each registry rule are
only ever applied to the value produced by that rule's own detector; the
cross-variant branches below are unreachable in the pipeline, as in the
dynamically-typed source). -/
structure FilterRule where
  field : String
  detect : String → Option DetVal
  build : DetVal → String
  strip : Option (String → DetVal → String)

structure EngineConfig where
  key : String
  engine_id : String
  patterns : List Pat
  default_on_tie : Bool
  filter_rules : List FilterRule

def WORK_HIST_ENGINE_ID : String := "work-hist_1769394022215"
def MANUAL_ENGINE_ID : String := "manual_1769391381390"

def dateRule : FilterRule where
  field := "date"
  detect := fun q => (detect_date q).map DetVal.dateV
  build := fun v => match v with | .dateV d => build_date_filter d | .strV _ => ""
  strip := some (fun q v => match v with | .dateV d => strip_date q d | .strV _ => q)

def ownerRule : FilterRule where
  field := "owner"
  detect := fun q => (detect_owner q).map DetVal.strV
  build := fun v => match v with | .strV s => build_owner_filter s | .dateV _ => ""
  strip := some (fun q v => match v with | .strV s => strip_owner q s | .dateV _ => q)

def companyRule : FilterRule where
  field := "company"
  detect := fun q => (detect_company q).map DetVal.strV
  build := fun v => match v with | .strV s => build_company_filter s | .dateV _ => ""
  strip := some (fun q v => match v with | .strV s => strip_company q s | .dateV _ => q)

def workCfg : EngineConfig where
  key := "work_hist"
  engine_id := WORK_HIST_ENGINE_ID
  patterns := WORK_PATTERNS
  default_on_tie := true
  filter_rules := [dateRule, ownerRule, companyRule]

def manualCfg : EngineConfig where
  key := "manual"
  engine_id := MANUAL_ENGINE_ID
  patterns := MANUAL_PATTERNS
  default_on_tie := false
  filter_rules := []

def ENGINE_REGISTRY : List EngineConfig := [workCfg, manualCfg]

/-- The `compiled` sub-dictionary of the result schema. -/
structure Compiled where
  applied : Bool
  filter_expr : Option String
  query_text : String
  reason : String
  matched_fields : List (String × DetVal)
deriving DecidableEq, Repr

/-- The result dictionary of `select_and_compile`. -/
structure SelResult where
  engine_id : String
  engine_key : String
  engine_reason : String
  scores : List (String × Nat)
  matched_patterns : List (String × List Pat)
  compiled : Compiled
deriving DecidableEq, Repr

/-- Python truthiness of an `Optional[str]`. -/
def pyTruthyOptStr : Option String → Bool
  | none => false
  | some s => s != ""

/-- Substring search on char lists (Python's `in` on `str`). -/
def isInfixL (pat : List Char) : List Char → Bool
  | [] => pat.isEmpty
  | c :: cs => pat.isPrefixOf (c :: cs) || isInfixL pat cs

/-- Python `" AND " in f` (substring containment). -/
def containsAND (f : String) : Bool := isInfixL " AND ".data f.data

/-- `f"({f})" if " AND " in f else f`. -/
def parenIfAnd (f : String) : String :=
  if containsAND f then "(" ++ f ++ ")" else f

/-- Python `" AND ".join(chunks)`. -/
def joinAND : List String → String
  | [] => ""
  | [x] => x
  | x :: y :: xs => x ++ " AND " ++ joinAND (y :: xs)

/-- `val is None or val == ""` (a dict value never equals `""`). -/
def isEmptyVal : DetVal → Bool
  | .strV s => s == ""
  | .dateV _ => false

/-- `_compile_with_rules`. -/
def compile_with_rules (cfg : EngineConfig) (user_query : String) : Compiled :=
  let q := clean user_query
  if cfg.filter_rules.isEmpty then
    { applied := false, filter_expr := none, query_text := q,
      reason := "engine_has_no_filter_rules", matched_fields := [] }
  else
    let st := cfg.filter_rules.foldl
      (fun (st : List String × List (String × DetVal) × String) rule =>
        match rule.detect q with
        | none => st
        | some v =>
          if isEmptyVal v then st
          else
            (st.1 ++ [rule.build v], st.2.1 ++ [(rule.field, v)],
             match rule.strip with
             | some stf => stf st.2.2 v
             | none => st.2.2))
      ([], [], q)
    let filter_expr : Option String :=
      if st.1.isEmpty then none else some (joinAND (st.1.map parenIfAnd))
    { applied := pyTruthyOptStr filter_expr,
      filter_expr := filter_expr,
      query_text := if st.2.2 == "" then q else st.2.2,
      reason := if pyTruthyOptStr filter_expr then "compiled_from_engine_rules"
                else "no_fields_matched",
      matched_fields := st.2.1 }

/-- Pattern score of an engine against the lowered query (`s`/`hits` of
step (1) of `select_and_compile`). -/
def scoreOf (cfg : EngineConfig) (qm : List Char) : Nat :=
  (cfg.patterns.filter (fun p => patMatch p qm)).length

/-- `select_and_compile`.  `none` models the `IndexError` Python would
raise on an empty candidate list; for the
non-empty registry the selection always succeeds (proved below). -/
def select_and_compile (user_query : String) : Option SelResult :=
  let q := clean user_query
  let qm := (pyLower q).data
  let scores := ENGINE_REGISTRY.map (fun cfg => (cfg.key, scoreOf cfg qm))
  let matched_patterns :=
    ENGINE_REGISTRY.map (fun cfg => (cfg.key, cfg.patterns.filter (fun p => patMatch p qm)))
  let best := (scores.map Prod.snd).foldl Nat.max 0
  let candidates := ENGINE_REGISTRY.filter (fun cfg => scoreOf cfg qm == best)
  match candidates with
  | [] => none
  | [selected] =>
    some { engine_id := selected.engine_id, engine_key := selected.key,
           engine_reason := selected.key ++ " 점수가 가장 높음 (" ++ selected.key ++
             "=" ++ toString best ++ ")",
           scores := scores, matched_patterns := matched_patterns,
           compiled := compile_with_rules selected q }
  | c0 :: c1 :: rest =>
    let default_candidates := (c0 :: c1 :: rest).filter (fun c => c.default_on_tie)
    let selected := match default_candidates with
      | d :: _ => d
      | [] => c0
    let engine_reason := match default_candidates with
      | _ :: _ => "동점(" ++ toString best ++ ") → default_on_tie 규칙으로 " ++
          selected.key ++ " 선택"
      | [] => "동점(" ++ toString best ++ ") → 우선순위(레지스트리 순서)로 " ++
          selected.key ++ " 선택"
    some { engine_id := selected.engine_id, engine_key := selected.key,
           engine_reason := engine_reason,
           scores := scores, matched_patterns := matched_patterns,
           compiled := compile_with_rules selected q }

/-! ### Generic lemmas about the scanners -/

lemma searchPos_some {α : Type} (f : List Char → Option α) :
    ∀ l a, searchPos f l = some a → ∃ l', l' <:+ l ∧ f l' = some a := by
  intro l
  induction l with
  | nil => intro a h; simp [searchPos] at h
  | cons c cs ih =>
    intro a h
    rw [searchPos] at h
    rcases h1 : f (c :: cs) with _ | v
    · rw [h1] at h
      simp only [Option.orElse] at h
      obtain ⟨l', hs, hf⟩ := ih a h
      exact ⟨l', hs.trans (List.suffix_cons c cs), hf⟩
    · rw [h1] at h
      simp only [Option.orElse] at h
      exact ⟨c :: cs, List.suffix_refl _, h ▸ h1⟩

lemma searchPosB_some {α : Type} (f : Option Char → List Char → Option α) :
    ∀ pv l a, searchPosB f pv l = some a → ∃ pv' l', l' <:+ l ∧ f pv' l' = some a := by
  intro pv l
  induction l generalizing pv with
  | nil => intro a h; simp [searchPosB] at h
  | cons c cs ih =>
    intro a h
    rw [searchPosB] at h
    rcases h1 : f pv (c :: cs) with _ | v
    · rw [h1] at h
      simp only [Option.orElse] at h
      obtain ⟨pv', l', hs, hf⟩ := ih (some c) a h
      exact ⟨pv', l', hs.trans (List.suffix_cons c cs), hf⟩
    · rw [h1] at h
      simp only [Option.orElse] at h
      exact ⟨pv, c :: cs, List.suffix_refl _, h ▸ h1⟩

/-- If `f` matching at a position implies `g` matching there, a successful
scan for `f` implies a successful scan for `g`. -/
lemma searchPosB_isSome_mono {α β : Type} {f : Option Char → List Char → Option α}
    {g : Option Char → List Char → Option β}
    (hfg : ∀ pv l, (f pv l).isSome → (g pv l).isSome) :
    ∀ pv l, (searchPosB f pv l).isSome → (searchPosB g pv l).isSome := by
  intro pv l
  induction l generalizing pv with
  | nil => simp [searchPosB]
  | cons c cs ih =>
    intro hs
    rw [searchPosB] at hs ⊢
    rcases h1 : f pv (c :: cs) with _ | v
    · rw [h1] at hs
      simp only [Option.orElse] at hs
      rcases h2 : g pv (c :: cs) with _ | w
      · simp only [Option.orElse]
        exact ih (some c) hs
      · simp
    · have : (g pv (c :: cs)).isSome := hfg pv (c :: cs) (by simp [h1])
      rcases h2 : g pv (c :: cs) with _ | w
      · rw [h2] at this; simp at this
      · simp

/-- A position where the range pattern matches is a position where the
single ISO pattern matches (the range pattern starts with `\b{iso}\b`). -/
lemma singleAt_isSome_of_rangeAt (pv : Option Char) (l : List Char) :
    (rangeAt pv l).isSome → (singleAt pv l).isSome := by
  intro h
  by_cases hb : boundaryB pv l.head? = true
  · rcases hi : isoAt l with _ | ⟨s, r1⟩
    · rw [rangeAt, if_pos hb, hi] at h; simp at h
    · by_cases hw : wordOpt r1.head? = true
      · rw [rangeAt, if_pos hb, hi] at h; simp [hw] at h
      · rw [singleAt, if_pos hb, hi]
        simp [hw]
  · rw [rangeAt, if_neg hb] at h; simp at h

/-! ### C2: strict priority order of the date detector -/

/-- C2: the date detector applies its rules in strict priority order with
first match wins: an explicit two-endpoint ISO range is detected before a
single ISO date (and whenever the range pattern matches, the single-ISO
pattern also matches somewhere, so the shadowing is real), which is
detected before the localized full date, which is detected before the
localized year+month; a single ISO date yields start = end = that date. -/
theorem detect_date_priority (q : String) :
    (∀ s e raw, searchPosB rangeAt none (clean q).data = some (s, e, raw) →
      detect_date q = some ⟨"range", ⟨s⟩, ⟨e⟩, ⟨raw⟩⟩ ∧
      (searchPosB singleAt none (clean q).data).isSome = true) ∧
    (searchPosB rangeAt none (clean q).data = none →
      ∀ iso, searchPosB singleAt none (clean q).data = some iso →
        detect_date q = some ⟨"day", ⟨iso⟩, ⟨iso⟩, ⟨iso⟩⟩) ∧
    (searchPosB rangeAt none (clean q).data = none →
      searchPosB singleAt none (clean q).data = none →
      ∀ y mo d raw, searchPos m1At (clean q).data = some (y, mo, d, raw) →
        detect_date q = some ⟨"day", pad4 y ++ "-" ++ pad2 mo ++ "-" ++ pad2 d,
          pad4 y ++ "-" ++ pad2 mo ++ "-" ++ pad2 d, ⟨raw⟩⟩) ∧
    (searchPosB rangeAt none (clean q).data = none →
      searchPosB singleAt none (clean q).data = none →
      searchPos m1At (clean q).data = none →
      ∀ y mo raw, searchPos m2At (clean q).data = some (y, mo, raw) →
        detect_date q = some ⟨"month", (month_range y mo).1, (month_range y mo).2, ⟨raw⟩⟩) := by
  refine ⟨?_, ?_, ?_, ?_⟩
  · intro s e raw h
    constructor
    · rw [detect_date, h]
    · exact searchPosB_isSome_mono singleAt_isSome_of_rangeAt none (clean q).data
        (by simp [h])
  · intro h1 iso h2
    rw [detect_date, h1, h2]
  · intro h1 h2 y mo d raw h3
    rw [detect_date, h1, h2, h3]
  · intro h1 h2 h3 y mo raw h4
    rw [detect_date, h1, h2, h3, h4]

/-- Witness for `detect_date_priority` at a concrete range query. -/
theorem detect_date_priority_witness :
    detect_date "2024-01-01 ~ 2024-01-02" =
      some ⟨"range", "2024-01-01", "2024-01-02", "2024-01-01 ~ 2024-01-02"⟩ ∧
    (searchPosB singleAt none (clean "2024-01-01 ~ 2024-01-02").data).isSome = true := by
  have h := (detect_date_priority "2024-01-01 ~ 2024-01-02").1
    "2024-01-01".data "2024-01-02".data "2024-01-01 ~ 2024-01-02".data (by decide)
  exact h

/-! ### Shape of the values produced by the date detector -/

/-- Inversion on the four-rule cascade of `_detect_date`. -/
lemma detect_date_shape (q : String) (v : DateVal) (h : detect_date q = some v) :
    v.type = "range" ∨ (v.type = "day" ∧ v.start = v.stop) ∨
      (v.type = "month" ∧
        ∃ y mo, v.start = (month_range y mo).1 ∧ v.stop = (month_range y mo).2) := by
  rw [detect_date] at h
  rcases h1 : searchPosB rangeAt none (clean q).data with _ | ⟨s, e, raw⟩ <;> rw [h1] at h
  · rcases h2 : searchPosB singleAt none (clean q).data with _ | iso <;> rw [h2] at h
    · rcases h3 : searchPos m1At (clean q).data with _ | ⟨y, mo, d, raw⟩ <;> rw [h3] at h
      · rcases h4 : searchPos m2At (clean q).data with _ | ⟨y, mo, raw⟩ <;> rw [h4] at h
        · simp at h
        · simp only [Option.some.injEq] at h
          subst h
          exact Or.inr (Or.inr ⟨rfl, y, mo, rfl, rfl⟩)
      · simp only [Option.some.injEq] at h
        subst h
        exact Or.inr (Or.inl ⟨rfl, rfl⟩)
    · simp only [Option.some.injEq] at h
      subst h
      exact Or.inr (Or.inl ⟨rfl, rfl⟩)
  · simp only [Option.some.injEq] at h
    subst h
    exact Or.inl rfl

/-- Cancel a common prefix on the left of a lexicographic comparison. -/
lemma lex_append_left_cancel {p x y : List Char}
    (h : List.Lex (· < ·) (p ++ x) (p ++ y)) : List.Lex (· < ·) x y := by
  induction p with
  | nil => exact h
  | cons c cs ih =>
    cases h with
    | rel hr => exact absurd hr (lt_irrefl c)
    | cons h' => exact ih h'

/-- Appending after a common prefix preserves strict lexicographic order of
strings. -/
lemma str_append_lt_append (p a b : String) (h : List.Lex (· < ·) a.data b.data) :
    p ++ a < p ++ b := by
  rw [String.lt_iff_toList_lt]
  have ha : (p ++ a).toList = p.data ++ a.data := String.data_append p a
  have hb : (p ++ b).toList = p.data ++ b.data := String.data_append p b
  rw [ha, hb]
  exact List.Lex.append_left _ h p.data

/-- The two ends of `_month_range` are lexicographically ordered: they share
the prefix `YYYY-MM-`, and the last-day component (28..31) exceeds `01`. -/
lemma month_range_start_le_stop (y mo : Nat) : (month_range y mo).1 ≤ (month_range y mo).2 := by
  have hlast : ∃ s : String, pad2 (lastDayOfMonth y mo) = s ∧
      List.Lex (· < ·) ['0', '1'] s.data := by
    unfold lastDayOfMonth
    by_cases h2 : mo = 2
    · by_cases hl : isLeap y = true
      · exact ⟨"29", by rw [if_pos h2, if_pos hl]; decide, by decide⟩
      · exact ⟨"28", by rw [if_pos h2, if_neg hl]; decide, by decide⟩
    · by_cases h30 : (mo = 4 || mo = 6 || mo = 9 || mo = 11) = true
      · exact ⟨"30", by rw [if_neg h2, if_pos h30]; decide, by decide⟩
      · exact ⟨"31", by rw [if_neg h2, if_neg h30]; decide, by decide⟩
  obtain ⟨s, hs, hlex⟩ := hlast
  rw [String.le_iff_toList_le]
  apply le_of_lt
  show List.Lex (· < ·) (month_range y mo).1.toList (month_range y mo).2.toList
  have hd1 : "-".data = ['-'] := rfl
  have hd2 : "-01".data = ['-', '0', '1'] := rfl
  have h1 : (month_range y mo).1.toList =
      ((pad4 y).data ++ '-' :: ((pad2 mo).data ++ ['-'])) ++ ['0', '1'] := by
    simp [month_range, String.toList, String.data_append, hd1, hd2]
  have h2 : (month_range y mo).2.toList =
      ((pad4 y).data ++ '-' :: ((pad2 mo).data ++ ['-'])) ++ s.data := by
    simp [month_range, hs, String.toList, String.data_append, hd1]
  rw [h1, h2]
  exact List.Lex.append_left _ hlex _

/-! ### C4: the `start <= end` invariant -/

/-- C4 counterexample: an explicit range written later-date-first is taken
verbatim, violating `start <= end`. -/
theorem detect_date_reversed_range_cex :
    detect_date "2024-12-31 ~ 2024-01-01" =
      some ⟨"range", "2024-12-31", "2024-01-01", "2024-12-31 ~ 2024-01-01"⟩ ∧
    ¬ ("2024-12-31" : String) ≤ "2024-01-01" := by
  refine ⟨by decide, ?_⟩
  rw [String.le_iff_toList_le]
  decide

/-- C4 amended: every `DetectedDateValue` whose kind is not `range`
(single days and months) satisfies `start <= end` lexicographically;
explicit ranges copy their two endpoints verbatim in textual order and may
violate it. -/
theorem detect_date_nonrange_start_le_stop (q : String) (v : DateVal)
    (h : detect_date q = some v) (hty : v.type ≠ "range") : v.start ≤ v.stop := by
  rcases detect_date_shape q v h with hr | ⟨_, hse⟩ | ⟨_, y, mo, hs, he⟩
  · exact absurd hr hty
  · exact le_of_eq hse
  · rw [hs, he]
    exact month_range_start_le_stop y mo

/-- Witness for `detect_date_nonrange_start_le_stop`. -/
theorem detect_date_nonrange_start_le_stop_witness :
    detect_date "2024년 3월" = some ⟨"month", "2024-03-01", "2024-03-31", "2024년 3월"⟩ ∧
    ("2024-03-01" : String) ≤ "2024-03-31" := by
  refine ⟨by decide, ?_⟩
  exact detect_date_nonrange_start_le_stop "2024년 3월"
    ⟨"month", "2024-03-01", "2024-03-31", "2024년 3월"⟩ (by decide) (by decide)

/-! ### C3: the localized year+month rule -/

/-- C3 counterexample: a query containing `2024년 3월` with no trailing day
still yields a single-day value when an ISO date occurs anywhere in the
query — the earlier rules shadow the month rule. -/
theorem detect_date_month_shadowed_cex :
    detect_date "2024-05-06 2024년 3월" =
      some ⟨"day", "2024-05-06", "2024-05-06", "2024-05-06"⟩ ∧
    (detect_date "2024-05-06 2024년 3월").map DateVal.type ≠ some "month" := by
  refine ⟨by decide, ?_⟩
  decide

/-- C3 amended: when none of the three earlier rules matches and the
year+month rule does, the detector expands to the full calendar month with
the actual last day (leap years included); in particular `2024년 3월` gives
`2024-03-01`..`2024-03-31` and `2024년 2월` gives end `2024-02-29`. -/
theorem detect_date_month_rule (q : String) (y mo : Nat) (raw : List Char)
    (h1 : searchPosB rangeAt none (clean q).data = none)
    (h2 : searchPosB singleAt none (clean q).data = none)
    (h3 : searchPos m1At (clean q).data = none)
    (h4 : searchPos m2At (clean q).data = some (y, mo, raw)) :
    detect_date q = some ⟨"month", pad4 y ++ "-" ++ pad2 mo ++ "-01",
      pad4 y ++ "-" ++ pad2 mo ++ "-" ++ pad2 (lastDayOfMonth y mo), ⟨raw⟩⟩ ∧
    lastDayOfMonth 2024 3 = 31 ∧ lastDayOfMonth 2024 2 = 29 ∧ isLeap 2024 = true ∧
    detect_date "2024년 3월" = some ⟨"month", "2024-03-01", "2024-03-31", "2024년 3월"⟩ ∧
    detect_date "2024년 2월" = some ⟨"month", "2024-02-01", "2024-02-29", "2024년 2월"⟩ := by
  refine ⟨?_, by decide, by decide, by decide, by decide, by decide⟩
  rw [detect_date, h1, h2, h3, h4]
  rfl

/-- Witness for `detect_date_month_rule`. -/
theorem detect_date_month_rule_witness :
    detect_date "2024년 2월" =
      some ⟨"month", pad4 2024 ++ "-" ++ pad2 2 ++ "-01",
        pad4 2024 ++ "-" ++ pad2 2 ++ "-" ++ pad2 (lastDayOfMonth 2024 2), "2024년 2월"⟩ := by
  exact (detect_date_month_rule "2024년 2월" 2024 2 "2024년 2월".data
    (by decide) (by decide) (by decide) (by decide)).1

/-! ### C7: quote escaping in the builders -/

/-- Character-wise form of the `'"' ↦ '\\"'` escaping. -/
def escQuote (c : Char) : List Char := if c = '"' then ['\\', '"'] else [c]

/-- The single-character pattern `"` is a prefix of `c :: cs` iff `c` is the
quote character. -/
lemma quote_isPrefixOf_iff (c : Char) (cs : List Char) :
    "\"".data.isPrefixOf (c :: cs) = true ↔ c = '"' := by
  have hd : "\"".data = ['"'] := rfl
  rw [hd, List.isPrefixOf_iff_prefix]
  constructor
  · rintro ⟨t, ht⟩
    injection ht with h1 h2
    exact h1.symm
  · rintro rfl
    exact ⟨cs, rfl⟩

/-- `str.replace('"', '\\"')` expands each character independently: the
pattern is a single character, so occurrences never overlap (stated on the
fuel-driven scan for any sufficient fuel). -/
lemma pyReplaceGo_escQuote : ∀ (fuel : Nat) (l : List Char), l.length ≤ fuel →
    pyReplaceGo "\"".data "\\\"".data fuel l = l.flatMap escQuote := by
  intro fuel
  induction fuel with
  | zero =>
    intro l hl
    cases l with
    | nil => rfl
    | cons c cs => simp at hl
  | succ n ih =>
    intro l hl
    cases l with
    | nil => rfl
    | cons c cs =>
      have hcs : cs.length ≤ n := by
        simp only [List.length_cons] at hl
        omega
      by_cases hc : c = '"'
      · subst hc
        rw [pyReplaceGo, if_pos ⟨by decide, (quote_isPrefixOf_iff _ cs).mpr rfl⟩]
        show "\\\"".data ++ pyReplaceGo "\"".data "\\\"".data n cs = ('"' :: cs).flatMap escQuote
        rw [ih cs hcs]
        rfl
      · rw [pyReplaceGo, if_neg (fun hcon => hc ((quote_isPrefixOf_iff c cs).mp hcon.2))]
        rw [ih cs hcs]
        simp only [List.flatMap_cons, escQuote, if_neg hc]
        rfl

lemma pyReplaceL_escQuote (l : List Char) :
    pyReplaceL "\"".data "\\\"".data l = l.flatMap escQuote :=
  pyReplaceGo_escQuote l.length l le_rfl

/-- C7: for every value string, the owner builder emits
`owner: ANY("<value>")` and the company builder `company: ANY("<value>")`,
with each embedded `"` in the value replaced by `\"` (character-wise
expansion `escQuote`); both builders are total functions, so they never
raise. -/
theorem builder_escapes_quotes (v : String) :
    build_owner_filter v = "owner: ANY(\"" ++ ⟨v.data.flatMap escQuote⟩ ++ "\")" ∧
    build_company_filter v = "company: ANY(\"" ++ ⟨v.data.flatMap escQuote⟩ ++ "\")" := by
  unfold build_owner_filter build_company_filter pyReplace
  rw [pyReplaceL_escQuote]
  exact ⟨rfl, rfl⟩

/-! ### C10: token classes of the detected owner/company values -/

lemma dropWhile_eq_self_of_all {p : Char → Bool} {t : List Char}
    (h : ∀ c ∈ t, p c = false) : t.dropWhile p = t := by
  cases t with
  | nil => rfl
  | cons c cs =>
    have hc := h c (List.mem_cons_self c cs)
    simp [List.dropWhile_cons, hc]

/-- `str.strip()` leaves a string with no whitespace characters unchanged. -/
lemma pyStrip_of_no_space {t : List Char} (h : ∀ c ∈ t, isSpaceC c = false) :
    pyStrip ⟨t⟩ = ⟨t⟩ := by
  unfold pyStrip stripChars
  congr 1
  show ((t.dropWhile isSpaceC).reverse.dropWhile isSpaceC).reverse = t
  rw [dropWhile_eq_self_of_all h,
      dropWhile_eq_self_of_all (fun c hc => h c (List.mem_reverse.mp hc)),
      List.reverse_reverse]

lemma tokenAfterColon_some {tokC : Char → Bool} {r t : List Char}
    (h : tokenAfterColon tokC r = some t) : t ≠ [] ∧ ∀ c ∈ t, tokC c = true := by
  unfold tokenAfterColon at h
  dsimp only at h
  split at h
  · split at h
    · split at h
      · exact absurd h (by simp)
      · rename_i he
        injection h with h'
        subst h'
        refine ⟨?_, fun c' hc' => List.mem_takeWhile_imp hc'⟩
        intro hnil
        exact he (by simp [hnil])
    · exact absurd h (by simp)
  · exact absurd h (by simp)

lemma ownerAt_some {l t : List Char} (h : ownerAt l = some t) :
    t ≠ [] ∧ ∀ c ∈ t, isOwnerTokC c = true := by
  unfold ownerAt at h
  split at h
  · exact tokenAfterColon_some h
  · split at h
    · exact tokenAfterColon_some h
    · exact absurd h (by simp)

lemma companyAt_some {l t : List Char} (h : companyAt l = some t) :
    t ≠ [] ∧ ∀ c ∈ t, isCompanyTokC c = true := by
  unfold companyAt at h
  split at h
  · exact tokenAfterColon_some h
  · split at h
    · exact tokenAfterColon_some h
    · exact absurd h (by simp)

lemma isOwnerTokC_not_space {c : Char} (h : isOwnerTokC c = true) : isSpaceC c = false := by
  cases hs : isSpaceC c
  · rfl
  · exfalso
    have hc : ((((c = ' ' ∨ c = '\t') ∨ c = '\n') ∨ c = '\x0d') ∨ c = '\x0b') ∨ c = '\x0c' := by
      simpa [isSpaceC] using hs
    rcases hc with ((((rfl | rfl) | rfl) | rfl) | rfl) | rfl <;> revert h <;> decide

lemma isCompanyTokC_not_space {c : Char} (h : isCompanyTokC c = true) : isSpaceC c = false := by
  cases hs : isSpaceC c
  · rfl
  · exfalso
    have hc : ((((c = ' ' ∨ c = '\t') ∨ c = '\n') ∨ c = '\x0d') ∨ c = '\x0b') ∨ c = '\x0c' := by
      simpa [isSpaceC] using hs
    rcases hc with ((((rfl | rfl) | rfl) | rfl) | rfl) | rfl <;> revert h <;> decide

lemma isOwnerTokC_ne_quote {c : Char} (h : isOwnerTokC c = true) : c ≠ '"' := by
  rintro rfl; revert h; decide

lemma isCompanyTokC_ne_quote {c : Char} (h : isCompanyTokC c = true) : c ≠ '"' := by
  rintro rfl; revert h; decide

/-- A value without quote characters is unchanged by the escaping. -/
lemma flatMap_escQuote_id {t : List Char} (h : ∀ c ∈ t, c ≠ '"') :
    t.flatMap escQuote = t := by
  induction t with
  | nil => rfl
  | cons c cs ih =>
    rw [List.flatMap_cons, ih (fun c' hc' => h c' (List.mem_cons_of_mem _ hc'))]
    simp [escQuote, h c (List.mem_cons_self c cs)]

lemma detect_owner_some {q : String} {v : String} (h : detect_owner q = some v) :
    v ≠ "" ∧ ∀ c ∈ v.data, isOwnerTokC c = true := by
  unfold detect_owner at h
  rcases hs : searchPos ownerAt q.data with _ | t <;> rw [hs] at h
  · exact absurd h (by simp)
  · obtain ⟨l', _, hAt⟩ := searchPos_some ownerAt q.data t hs
    obtain ⟨hne, hall⟩ := ownerAt_some hAt
    have hns : ∀ c ∈ t, isSpaceC c = false := fun c hc => isOwnerTokC_not_space (hall c hc)
    have hv : v = ⟨t⟩ := by
      have h' : some (pyStrip ⟨t⟩) = some v := by simpa using h
      injection h' with h''
      rw [← h'', pyStrip_of_no_space hns]
    subst hv
    refine ⟨?_, hall⟩
    intro habs
    exact hne (congrArg String.data habs)

lemma detect_company_some {q : String} {v : String} (h : detect_company q = some v) :
    v ≠ "" ∧ ∀ c ∈ v.data, isCompanyTokC c = true := by
  unfold detect_company at h
  rcases hs : searchPos companyAt q.data with _ | t <;> rw [hs] at h
  · exact absurd h (by simp)
  · obtain ⟨l', _, hAt⟩ := searchPos_some companyAt q.data t hs
    obtain ⟨hne, hall⟩ := companyAt_some hAt
    have hns : ∀ c ∈ t, isSpaceC c = false := fun c hc => isCompanyTokC_not_space (hall c hc)
    have hv : v = ⟨t⟩ := by
      have h' : some (pyStrip ⟨t⟩) = some v := by simpa using h
      injection h' with h''
      rw [← h'', pyStrip_of_no_space hns]
    subst hv
    refine ⟨?_, hall⟩
    intro habs
    exact hne (congrArg String.data habs)

/-- C10: every value returned by the owner detector consists of
`[가-힣A-Za-z0-9_]` characters and every company value of
`[가-힣A-Za-z0-9_()\-]` characters; the values are non-empty, contain no
double quote and no whitespace, and therefore the builders' quote escaping
leaves them unchanged inside `owner: ANY("...")` / `company: ANY("...")`. -/
theorem detector_token_classes (q : String) :
    (∀ v, detect_owner q = some v → v ≠ "" ∧ (∀ c ∈ v.data, isOwnerTokC c = true) ∧
      (∀ c ∈ v.data, c ≠ '"' ∧ isSpaceC c = false) ∧
      build_owner_filter v = "owner: ANY(\"" ++ v ++ "\")") ∧
    (∀ v, detect_company q = some v → v ≠ "" ∧ (∀ c ∈ v.data, isCompanyTokC c = true) ∧
      (∀ c ∈ v.data, c ≠ '"' ∧ isSpaceC c = false) ∧
      build_company_filter v = "company: ANY(\"" ++ v ++ "\")") := by
  constructor
  · intro v hv
    obtain ⟨hne, hall⟩ := detect_owner_some hv
    refine ⟨hne, hall,
      fun c hc => ⟨isOwnerTokC_ne_quote (hall c hc), isOwnerTokC_not_space (hall c hc)⟩, ?_⟩
    unfold build_owner_filter pyReplace
    rw [pyReplaceL_escQuote, flatMap_escQuote_id (fun c hc => isOwnerTokC_ne_quote (hall c hc))]
  · intro v hv
    obtain ⟨hne, hall⟩ := detect_company_some hv
    refine ⟨hne, hall,
      fun c hc => ⟨isCompanyTokC_ne_quote (hall c hc), isCompanyTokC_not_space (hall c hc)⟩, ?_⟩
    unfold build_company_filter pyReplace
    rw [pyReplaceL_escQuote, flatMap_escQuote_id (fun c hc => isCompanyTokC_ne_quote (hall c hc))]

/-! ### The compiler fold on the two registry engines, unrolled -/

/-- An engine without filter rules returns the query unchanged (after the
`_clean`) with reason `engine_has_no_filter_rules`. -/
lemma compile_manual_eq (uq : String) :
    compile_with_rules manualCfg uq =
      { applied := false, filter_expr := none, query_text := clean uq,
        reason := "engine_has_no_filter_rules", matched_fields := [] } := by
  simp [compile_with_rules, manualCfg]

/-- The residual query text of the work-history engine: the declared
strippers applied in rule-registration order, each to the output of the
previous one, starting from the cleaned query. -/
def workResidual (uq : String) : String :=
  let q := clean uq
  let q1 := match detect_date q with
    | some d => strip_date q d
    | none => q
  let q2 := match detect_owner q with
    | some o => strip_owner q1 o
    | none => q1
  match detect_company q with
  | some c => strip_company q2 c
  | none => q2

/-- Unrolled form of `_compile_with_rules` on the work-history engine,
entirely in terms of the three field detectors run against the cleaned
query (the detectors never see stripped text) and of the sequential
strippers (`workResidual`). -/
lemma compile_work_unfold (uq : String) :
    compile_with_rules workCfg uq =
      (let q := clean uq
       let filters : List String :=
         (match detect_date q with
          | some d => [build_date_filter d]
          | none => []) ++
         (match detect_owner q with
          | some o => [build_owner_filter o]
          | none => []) ++
         (match detect_company q with
          | some c => [build_company_filter c]
          | none => [])
       let fields : List (String × DetVal) :=
         (match detect_date q with
          | some d => [("date", DetVal.dateV d)]
          | none => []) ++
         (match detect_owner q with
          | some o => [("owner", DetVal.strV o)]
          | none => []) ++
         (match detect_company q with
          | some c => [("company", DetVal.strV c)]
          | none => [])
       let filter_expr : Option String :=
         if filters.isEmpty then none else some (joinAND (filters.map parenIfAnd))
       { applied := pyTruthyOptStr filter_expr,
         filter_expr := filter_expr,
         query_text := if workResidual uq == "" then q else workResidual uq,
         reason := if pyTruthyOptStr filter_expr then "compiled_from_engine_rules"
                   else "no_fields_matched",
         matched_fields := fields }) := by
  have hrules : workCfg.filter_rules = [dateRule, ownerRule, companyRule] := rfl
  rcases hd : detect_date (clean uq) with _ | d <;>
    rcases ho : detect_owner (clean uq) with _ | o <;>
    rcases hc : detect_company (clean uq) with _ | c <;>
  first
  | (have ho' : o ≠ "" := (detect_owner_some ho).1
     have hc' : c ≠ "" := (detect_company_some hc).1
     simp [compile_with_rules, workResidual, hrules, dateRule, ownerRule,
       companyRule, hd, ho, hc, isEmptyVal, ho', hc'] <;> try rfl)
  | (have ho' : o ≠ "" := (detect_owner_some ho).1
     simp [compile_with_rules, workResidual, hrules, dateRule, ownerRule,
       companyRule, hd, ho, hc, isEmptyVal, ho'] <;> try rfl)
  | (have hc' : c ≠ "" := (detect_company_some hc).1
     simp [compile_with_rules, workResidual, hrules, dateRule, ownerRule,
       companyRule, hd, ho, hc, isEmptyVal, hc'] <;> try rfl)
  | (simp [compile_with_rules, workResidual, hrules, dateRule, ownerRule,
       companyRule, hd, ho, hc, isEmptyVal] <;> try rfl)

/-! ### Non-emptiness of fragments; occurrences of `" AND "` -/

lemma data_nil_eq_empty {a : String} (h : a.data = []) : a = "" :=
  String.toList_inj.mp (by show a.data = "".data; rw [h])

lemma str_append_ne_empty_left {a : String} (b : String) (ha : a ≠ "") : a ++ b ≠ "" := by
  intro h
  apply ha
  have hd := congrArg String.data h
  rw [String.data_append] at hd
  exact data_nil_eq_empty (List.append_eq_nil.mp hd).1

lemma joinAND_ne_empty {x : String} (xs : List String) (hx : x ≠ "") :
    joinAND (x :: xs) ≠ "" := by
  cases xs with
  | nil => exact hx
  | cons y ys =>
    rw [joinAND]
    exact str_append_ne_empty_left _ (str_append_ne_empty_left _ hx)

lemma build_date_filter_ne_empty (d : DateVal) : build_date_filter d ≠ "" := by
  unfold build_date_filter
  exact str_append_ne_empty_left _ (str_append_ne_empty_left _
    (str_append_ne_empty_left _ (str_append_ne_empty_left _ (by decide))))

lemma build_owner_filter_ne_empty (o : String) : build_owner_filter o ≠ "" := by
  unfold build_owner_filter
  exact str_append_ne_empty_left _ (str_append_ne_empty_left _ (by decide))

lemma build_company_filter_ne_empty (c : String) : build_company_filter c ≠ "" := by
  unfold build_company_filter
  exact str_append_ne_empty_left _ (str_append_ne_empty_left _ (by decide))

lemma parenIfAnd_ne_empty {f : String} (hf : f ≠ "") : parenIfAnd f ≠ "" := by
  unfold parenIfAnd
  split
  · exact str_append_ne_empty_left _ (str_append_ne_empty_left _ (by decide))
  · exact hf

lemma pyTruthyOptStr_some {s : String} (h : s ≠ "") : pyTruthyOptStr (some s) = true := by
  simp [pyTruthyOptStr, h]

/-- The executable substring search agrees with `List.IsInfix`. -/
lemma isInfixL_iff (pat : List Char) : ∀ l, isInfixL pat l = true ↔ pat <:+: l := by
  intro l
  induction l with
  | nil =>
    rw [isInfixL]
    simp [List.isEmpty_iff]
  | cons c cs ih =>
    rw [isInfixL]
    simp [List.infix_cons_iff, ih, List.isPrefixOf_iff_prefix]

lemma build_date_filter_data (d : DateVal) :
    ("date >= \"" ++ d.start).data ++ "\" AND date <= \"".data ++ (d.stop ++ "\"").data =
      (build_date_filter d).data := by
  simp [build_date_filter, String.data_append, List.append_assoc]

/-- The date fragment always contains `" AND "`. -/
lemma containsAND_build_date (d : DateVal) : containsAND (build_date_filter d) = true := by
  rw [containsAND, isInfixL_iff]
  have h1 : " AND ".data <:+: "\" AND date <= \"".data := by decide
  have h2 : "\" AND date <= \"".data <:+: (build_date_filter d).data :=
    ⟨("date >= \"" ++ d.start).data, (d.stop ++ "\"").data, build_date_filter_data d⟩
  exact h1.trans h2

lemma no_space_countP {v : List Char} (hv : ∀ c ∈ v, isSpaceC c = false) :
    v.countP (fun c => c == ' ') = 0 := by
  rw [List.countP_eq_zero]
  intro c hc
  have hs := hv c hc
  simp [isSpaceC] at hs
  simp [hs.1]

/-- A string with fewer than two spaces cannot contain `" AND "`. -/
lemma not_containsAND_of_one_space {s : String}
    (h : s.data.countP (fun c => c == ' ') < 2) : containsAND s = false := by
  cases hb : containsAND s
  · rfl
  · exfalso
    rw [containsAND] at hb
    have hinf : " AND ".data <:+: s.data := (isInfixL_iff _ _).mp hb
    have hle := hinf.sublist.countP_le (fun c => c == ' ')
    have h2 : " AND ".data.countP (fun c => c == ' ') = 2 := by decide
    omega

/-- The owner fragment of a whitespace-free, quote-free value contains no
`" AND "` (its only space is the one after `owner:`). -/
lemma containsAND_build_owner {o : String} (ho : ∀ c ∈ o.data, isSpaceC c = false)
    (hq : ∀ c ∈ o.data, c ≠ '"') : containsAND (build_owner_filter o) = false := by
  have hb : build_owner_filter o = "owner: ANY(\"" ++ o ++ "\")" := by
    unfold build_owner_filter pyReplace
    rw [pyReplaceL_escQuote, flatMap_escQuote_id hq]
  rw [hb]
  apply not_containsAND_of_one_space
  rw [String.data_append, String.data_append, List.countP_append, List.countP_append,
      no_space_countP ho]
  have hP : "owner: ANY(\"".data.countP (fun c => c == ' ') = 1 := by decide
  have hS : "\")".data.countP (fun c => c == ' ') = 0 := by decide
  omega

/-- Same for the company fragment. -/
lemma containsAND_build_company {c : String} (hc : ∀ x ∈ c.data, isSpaceC x = false)
    (hq : ∀ x ∈ c.data, x ≠ '"') : containsAND (build_company_filter c) = false := by
  have hb : build_company_filter c = "company: ANY(\"" ++ c ++ "\")" := by
    unfold build_company_filter pyReplace
    rw [pyReplaceL_escQuote, flatMap_escQuote_id hq]
  rw [hb]
  apply not_containsAND_of_one_space
  rw [String.data_append, String.data_append, List.countP_append, List.countP_append,
      no_space_countP hc]
  have hP : "company: ANY(\"".data.countP (fun c => c == ' ') = 1 := by decide
  have hS : "\")".data.countP (fun c => c == ' ') = 0 := by decide
  omega

/-- The joined filter expression of a non-empty fragment list is truthy. -/
lemma pyTruthy_joinAND_cons {f : String} (hf : f ≠ "") (xs : List String) :
    pyTruthyOptStr (some (joinAND (parenIfAnd f :: xs))) = true :=
  pyTruthyOptStr_some (joinAND_ne_empty _ (parenIfAnd_ne_empty hf))

lemma parenIfAnd_of_true {f : String} (h : containsAND f = true) :
    parenIfAnd f = "(" ++ f ++ ")" := by
  unfold parenIfAnd
  rw [if_pos h]

lemma parenIfAnd_of_false {f : String} (h : containsAND f = false) :
    parenIfAnd f = f := by
  unfold parenIfAnd
  rw [if_neg (by simp [h])]

/-! ### C5: the three result cases of the compiler -/

/-- C5 counterexample: the code's reason strings are
`engine_has_no_filter_rules` / `compiled_from_engine_rules`, not the
claimed `no_filter_rules` / `compiled`; and `query_text` is the *cleaned*
input, not the input unchanged. -/
theorem compile_reason_strings_cex :
    (select_and_compile " VMware ").map
        (fun r => (r.compiled.reason, r.compiled.query_text)) =
      some ("engine_has_no_filter_rules", "VMware") ∧
    ("engine_has_no_filter_rules" : String) ≠ "no_filter_rules" ∧
    ("VMware" : String) ≠ " VMware " := by
  exact ⟨by decide, by decide, by decide⟩

/-- C5 amended: the compiler's three result cases, with the reason strings
the code actually produces and with `query_text` compared against the
cleaned input query: an engine without rules gives
applied=false / no filter_expr / cleaned query / `engine_has_no_filter_rules`;
rules but no detected field give the same with `no_fields_matched`; at
least one detected field gives applied=true, a non-null combined
filter_expr, `compiled_from_engine_rules`, and `query_text` equal to the
final residual, or to the cleaned query when the residual became empty. -/
theorem compile_result_cases (uq : String) :
    (compile_with_rules manualCfg uq =
      { applied := false, filter_expr := none, query_text := clean uq,
        reason := "engine_has_no_filter_rules", matched_fields := [] }) ∧
    (detect_date (clean uq) = none → detect_owner (clean uq) = none →
      detect_company (clean uq) = none →
      compile_with_rules workCfg uq =
        { applied := false, filter_expr := none, query_text := clean uq,
          reason := "no_fields_matched", matched_fields := [] }) ∧
    ((detect_date (clean uq)).isSome = true ∨ (detect_owner (clean uq)).isSome = true ∨
        (detect_company (clean uq)).isSome = true →
      (compile_with_rules workCfg uq).applied = true ∧
      (compile_with_rules workCfg uq).reason = "compiled_from_engine_rules" ∧
      (compile_with_rules workCfg uq).filter_expr ≠ none ∧
      (compile_with_rules workCfg uq).query_text =
        (if workResidual uq == "" then clean uq else workResidual uq)) := by
  refine ⟨compile_manual_eq uq, ?_, ?_⟩
  · intro h1 h2 h3
    have hres : workResidual uq = clean uq := by
      simp [workResidual, h1, h2, h3]
    rw [compile_work_unfold uq]
    simp [h1, h2, h3, hres, pyTruthyOptStr]
  · intro h
    rw [compile_work_unfold uq]
    rcases hd : detect_date (clean uq) with _ | d <;>
      rcases ho : detect_owner (clean uq) with _ | o <;>
      rcases hc : detect_company (clean uq) with _ | c <;>
      simp only [hd, ho, hc, Option.isSome_none, Option.isSome_some, or_false, false_or,
        or_self, Bool.false_eq_true, List.nil_append, List.append_nil, List.map_cons,
        List.map_nil, List.cons_append, List.isEmpty_cons, List.isEmpty_nil,
        Bool.true_eq_false, if_false, if_true] at h ⊢
    all_goals
      first
      | exact h.elim
      | simp [pyTruthy_joinAND_cons, build_date_filter_ne_empty,
          build_owner_filter_ne_empty, build_company_filter_ne_empty]

/-- Witness for `compile_result_cases`. -/
theorem compile_result_cases_witness :
    compile_with_rules workCfg "hello" =
      { applied := false, filter_expr := none, query_text := "hello",
        reason := "no_fields_matched", matched_fields := [] } ∧
    (compile_with_rules workCfg "담당자: 홍길동 방문").reason = "compiled_from_engine_rules" := by
  constructor
  · have h := (compile_result_cases "hello").2.1 (by decide) (by decide) (by decide)
    rw [h]
    decide
  · exact ((compile_result_cases "담당자: 홍길동 방문").2.2
      (Or.inr (Or.inl (by decide)))).2.1

/-! ### C6: joining and parenthesization of fragments -/

/-- C6 counterexample: on a query where a date AND an owner field are
detected (the claim's premise) but a company field is detected as well, the
combined filter is a three-conjunct string, not the claimed two-conjunct
shape. -/
theorem filter_expr_shape_cex :
    (detect_date (clean "2024-01-05 담당자: 김철수 거래처: ABC")).isSome = true ∧
    detect_owner (clean "2024-01-05 담당자: 김철수 거래처: ABC") = some "김철수" ∧
    (compile_with_rules workCfg "2024-01-05 담당자: 김철수 거래처: ABC").filter_expr =
      some "(date >= \"2024-01-05\" AND date <= \"2024-01-05\") AND owner: ANY(\"김철수\") AND company: ANY(\"ABC\")" ∧
    some "(date >= \"2024-01-05\" AND date <= \"2024-01-05\") AND owner: ANY(\"김철수\") AND company: ANY(\"ABC\")" ≠
      some "(date >= \"2024-01-05\" AND date <= \"2024-01-05\") AND owner: ANY(\"김철수\")" := by
  exact ⟨by decide, by decide, by decide, by decide⟩

/-- C6 amended: fragments are joined with `" AND "`, and a fragment is
parenthesized exactly when it itself contains `" AND "`: the date fragment
always does, detected owner/company fragments never do.  When exactly a
date and an owner field are detected (no company), the combined filter is
`(date >= "<start>" AND date <= "<end>") AND owner: ANY("<value>")`; when a
company field is detected too, one further unparenthesized
`company: ANY("<value>")` conjunct is appended. -/
theorem filter_expr_join_shape (uq : String) :
    (∀ d : DateVal, containsAND (build_date_filter d) = true ∧
      parenIfAnd (build_date_filter d) = "(" ++ build_date_filter d ++ ")") ∧
    (∀ o, detect_owner (clean uq) = some o →
      containsAND (build_owner_filter o) = false ∧
      parenIfAnd (build_owner_filter o) = build_owner_filter o) ∧
    (∀ c, detect_company (clean uq) = some c →
      containsAND (build_company_filter c) = false ∧
      parenIfAnd (build_company_filter c) = build_company_filter c) ∧
    (∀ d o, detect_date (clean uq) = some d → detect_owner (clean uq) = some o →
      detect_company (clean uq) = none →
      (compile_with_rules workCfg uq).filter_expr =
        some ("(date >= \"" ++ d.start ++ "\" AND date <= \"" ++ d.stop ++
          "\") AND owner: ANY(\"" ++ o ++ "\")")) ∧
    (∀ d o c, detect_date (clean uq) = some d → detect_owner (clean uq) = some o →
      detect_company (clean uq) = some c →
      (compile_with_rules workCfg uq).filter_expr =
        some ("(date >= \"" ++ d.start ++ "\" AND date <= \"" ++ d.stop ++
          "\") AND owner: ANY(\"" ++ o ++ "\") AND company: ANY(\"" ++ c ++ "\")")) := by
  refine ⟨?_, ?_, ?_, ?_, ?_⟩
  · intro d
    exact ⟨containsAND_build_date d, parenIfAnd_of_true (containsAND_build_date d)⟩
  · intro o ho
    have hbo := detect_owner_some ho
    have hsp : ∀ x ∈ o.data, isSpaceC x = false :=
      fun x hx => isOwnerTokC_not_space (hbo.2 x hx)
    have hq : ∀ x ∈ o.data, x ≠ '"' := fun x hx => isOwnerTokC_ne_quote (hbo.2 x hx)
    exact ⟨containsAND_build_owner hsp hq,
      parenIfAnd_of_false (containsAND_build_owner hsp hq)⟩
  · intro c hc
    have hbc := detect_company_some hc
    have hsp : ∀ x ∈ c.data, isSpaceC x = false :=
      fun x hx => isCompanyTokC_not_space (hbc.2 x hx)
    have hq : ∀ x ∈ c.data, x ≠ '"' := fun x hx => isCompanyTokC_ne_quote (hbc.2 x hx)
    exact ⟨containsAND_build_company hsp hq,
      parenIfAnd_of_false (containsAND_build_company hsp hq)⟩
  · intro d o hd ho hc
    have hbo := detect_owner_some ho
    have hsp : ∀ x ∈ o.data, isSpaceC x = false :=
      fun x hx => isOwnerTokC_not_space (hbo.2 x hx)
    have hq : ∀ x ∈ o.data, x ≠ '"' := fun x hx => isOwnerTokC_ne_quote (hbo.2 x hx)
    have hesc : build_owner_filter o = "owner: ANY(\"" ++ o ++ "\")" := by
      unfold build_owner_filter pyReplace
      rw [pyReplaceL_escQuote, flatMap_escQuote_id hq]
    rw [compile_work_unfold uq]
    simp only [hd, ho, hc, List.append_nil, List.nil_append, List.singleton_append,
      List.cons_append, List.map_cons, List.map_nil,
      List.isEmpty_cons, Bool.false_eq_true, if_false]
    rw [parenIfAnd_of_true (containsAND_build_date d),
        parenIfAnd_of_false (containsAND_build_owner hsp hq), hesc]
    show some _ = some _
    congr 1
    apply String.toList_inj.mp
    simp [String.toList, String.data_append, build_date_filter, joinAND, List.append_assoc]
  · intro d o c hd ho hc
    have hbo := detect_owner_some ho
    have hspo : ∀ x ∈ o.data, isSpaceC x = false :=
      fun x hx => isOwnerTokC_not_space (hbo.2 x hx)
    have hqo : ∀ x ∈ o.data, x ≠ '"' := fun x hx => isOwnerTokC_ne_quote (hbo.2 x hx)
    have hbc := detect_company_some hc
    have hspc : ∀ x ∈ c.data, isSpaceC x = false :=
      fun x hx => isCompanyTokC_not_space (hbc.2 x hx)
    have hqc : ∀ x ∈ c.data, x ≠ '"' := fun x hx => isCompanyTokC_ne_quote (hbc.2 x hx)
    have hesco : build_owner_filter o = "owner: ANY(\"" ++ o ++ "\")" := by
      unfold build_owner_filter pyReplace
      rw [pyReplaceL_escQuote, flatMap_escQuote_id hqo]
    have hescc : build_company_filter c = "company: ANY(\"" ++ c ++ "\")" := by
      unfold build_company_filter pyReplace
      rw [pyReplaceL_escQuote, flatMap_escQuote_id hqc]
    rw [compile_work_unfold uq]
    simp only [hd, ho, hc, List.append_nil, List.nil_append, List.singleton_append,
      List.cons_append, List.map_cons, List.map_nil,
      List.isEmpty_cons, Bool.false_eq_true, if_false]
    rw [parenIfAnd_of_true (containsAND_build_date d),
        parenIfAnd_of_false (containsAND_build_owner hspo hqo),
        parenIfAnd_of_false (containsAND_build_company hspc hqc), hesco, hescc]
    show some _ = some _
    congr 1
    apply String.toList_inj.mp
    simp [String.toList, String.data_append, build_date_filter, joinAND, List.append_assoc]

/-- Witness for `filter_expr_join_shape`. -/
theorem filter_expr_join_shape_witness :
    (compile_with_rules workCfg "2024-01-05 방문 담당자: 김철수").filter_expr =
      some "(date >= \"2024-01-05\" AND date <= \"2024-01-05\") AND owner: ANY(\"김철수\")" := by
  have h := (filter_expr_join_shape "2024-01-05 방문 담당자: 김철수").2.2.2.1
    ⟨"day", "2024-01-05", "2024-01-05", "2024-01-05"⟩ "김철수" (by decide) (by decide) (by decide)
  rw [h]
  decide

/-! ### C8: detectors see the original query; strippers are sequential -/

/-- A scan with no occurrence of the pattern deletes nothing (any fuel). -/
lemma pyReplaceGo_no_occ {pat : List Char} (rep : List Char) :
    ∀ (fuel : Nat) (l : List Char), isInfixL pat l = false →
      pyReplaceGo pat rep fuel l = l := by
  intro fuel
  induction fuel with
  | zero =>
    intro l _
    cases l <;> rfl
  | succ n ih =>
    intro l hno
    cases l with
    | nil => rfl
    | cons c cs =>
      rw [isInfixL, Bool.or_eq_false_iff] at hno
      rw [pyReplaceGo, if_neg (fun hcon => by rw [hcon.2] at hno; exact absurd hno.1 (by simp)),
          ih cs hno.2]

lemma pyReplaceL_no_occ {pat : List Char} (rep l : List Char)
    (hno : isInfixL pat l = false) : pyReplaceL pat rep l = l :=
  pyReplaceGo_no_occ rep l.length l hno

/-- C8: during compilation every rule's detector is invoked on the
original (cleaned) query — the matched fields are a function of the three
detectors on that query alone, never of the progressively stripped text —
while the declared strippers run sequentially in rule-registration order,
each on the previous residual (`workResidual`); and a date stripper whose
raw match is empty, or does not occur in the (already stripped) residual,
is a no-op and, being a total function, never errors. -/
theorem compile_detect_original_strip_sequential (uq : String) :
    ((compile_with_rules workCfg uq).matched_fields =
      (match detect_date (clean uq) with
       | some d => [("date", DetVal.dateV d)]
       | none => []) ++
      (match detect_owner (clean uq) with
       | some o => [("owner", DetVal.strV o)]
       | none => []) ++
      (match detect_company (clean uq) with
       | some c => [("company", DetVal.strV c)]
       | none => [])) ∧
    ((compile_with_rules workCfg uq).query_text =
      (if workResidual uq == "" then clean uq else workResidual uq)) ∧
    (∀ (s : String) (v : DateVal), v.raw = "" → strip_date s v = s) ∧
    (∀ (s : String) (v : DateVal), v.raw ≠ "" →
      isInfixL v.raw.data s.data = false → pyStrip s = s → strip_date s v = s) := by
  refine ⟨?_, ?_, ?_, ?_⟩
  · rw [compile_work_unfold uq]
  · rw [compile_work_unfold uq]
  · intro s v h
    simp [strip_date, h]
  · intro s v h1 h2 h3
    unfold strip_date
    rw [if_pos h1]
    show clean ⟨pyReplaceL v.raw.data "".data s.data⟩ = s
    rw [show ("" : String).data = [] from rfl, pyReplaceL_no_occ [] s.data h2]
    exact h3

/-- Witness for `compile_detect_original_strip_sequential`. -/
theorem compile_detect_original_strip_sequential_witness :
    strip_date "abc" ⟨"day", "x", "y", ""⟩ = "abc" ∧
    strip_date "abc" ⟨"day", "x", "y", "zz"⟩ = "abc" ∧
    (compile_with_rules workCfg "2024년 3월 업무일지").query_text = "업무일지" := by
  refine ⟨?_, ?_, ?_⟩
  · exact (compile_detect_original_strip_sequential "x").2.2.1 "abc" ⟨"day", "x", "y", ""⟩ rfl
  · exact (compile_detect_original_strip_sequential "x").2.2.2 "abc" ⟨"day", "x", "y", "zz"⟩
      (by decide) (by decide) (by decide)
  · have h := (compile_detect_original_strip_sequential "2024년 3월 업무일지").2.1
    rw [h]
    decide

/-! ### C1: the selector always picks exactly one, best-scoring engine -/

/-- Pattern score of the work-history engine on a query (the score the
selector computes in step (1)). -/
def workScore (q : String) : Nat := scoreOf workCfg (pyLower (clean q)).data

/-- Pattern score of the manual engine on a query. -/
def manualScore (q : String) : Nat := scoreOf manualCfg (pyLower (clean q)).data

/-- The matched-pattern report of the selector. -/
def matchedPats (q : String) : List (String × List Pat) :=
  [("work_hist", WORK_PATTERNS.filter (fun p => patMatch p (pyLower (clean q)).data)),
   ("manual", MANUAL_PATTERNS.filter (fun p => patMatch p (pyLower (clean q)).data))]

lemma select_eq_manual (q : String) (h : workScore q < manualScore q) :
    select_and_compile q =
      some { engine_id := MANUAL_ENGINE_ID, engine_key := "manual",
             engine_reason := "manual" ++ " 점수가 가장 높음 (" ++ "manual" ++ "=" ++
               toString (manualScore q) ++ ")",
             scores := [("work_hist", workScore q), ("manual", manualScore q)],
             matched_patterns := matchedPats q,
             compiled := compile_with_rules manualCfg (clean q) } := by
  have hmax : Nat.max (Nat.max 0 (workScore q)) (manualScore q) = manualScore q := by
    show (0 ⊔ workScore q) ⊔ manualScore q = manualScore q
    rw [Nat.zero_max]
    exact Nat.max_eq_right (le_of_lt h)
  have hwne : (workScore q == manualScore q) = false := by
    simp [Nat.ne_of_lt h]
  rw [select_and_compile]
  simp only [ENGINE_REGISTRY, List.map_cons, List.map_nil, List.foldl_cons, List.foldl_nil,
    List.filter_cons, List.filter_nil, matchedPats]
  rw [show scoreOf workCfg (pyLower (clean q)).data = workScore q from rfl,
      show scoreOf manualCfg (pyLower (clean q)).data = manualScore q from rfl,
      hmax, hwne]
  simp [workCfg, manualCfg, WORK_HIST_ENGINE_ID, MANUAL_ENGINE_ID]

lemma select_eq_work_strict (q : String) (h : manualScore q < workScore q) :
    select_and_compile q =
      some { engine_id := WORK_HIST_ENGINE_ID, engine_key := "work_hist",
             engine_reason := "work_hist" ++ " 점수가 가장 높음 (" ++ "work_hist" ++ "=" ++
               toString (workScore q) ++ ")",
             scores := [("work_hist", workScore q), ("manual", manualScore q)],
             matched_patterns := matchedPats q,
             compiled := compile_with_rules workCfg (clean q) } := by
  have hmax : Nat.max (Nat.max 0 (workScore q)) (manualScore q) = workScore q := by
    show (0 ⊔ workScore q) ⊔ manualScore q = workScore q
    rw [Nat.zero_max]
    exact Nat.max_eq_left (le_of_lt h)
  have hmne : (manualScore q == workScore q) = false := by
    simp [Nat.ne_of_lt h]
  rw [select_and_compile]
  simp only [ENGINE_REGISTRY, List.map_cons, List.map_nil, List.foldl_cons, List.foldl_nil,
    List.filter_cons, List.filter_nil, matchedPats]
  rw [show scoreOf workCfg (pyLower (clean q)).data = workScore q from rfl,
      show scoreOf manualCfg (pyLower (clean q)).data = manualScore q from rfl,
      hmax, hmne]
  simp [workCfg, manualCfg, WORK_HIST_ENGINE_ID, MANUAL_ENGINE_ID]

lemma select_eq_tie (q : String) (h : workScore q = manualScore q) :
    select_and_compile q =
      some { engine_id := WORK_HIST_ENGINE_ID, engine_key := "work_hist",
             engine_reason := "동점(" ++ toString (manualScore q) ++
               ") → default_on_tie 규칙으로 " ++ "work_hist" ++ " 선택",
             scores := [("work_hist", workScore q), ("manual", manualScore q)],
             matched_patterns := matchedPats q,
             compiled := compile_with_rules workCfg (clean q) } := by
  have hmax : Nat.max (Nat.max 0 (workScore q)) (manualScore q) = manualScore q := by
    show (0 ⊔ workScore q) ⊔ manualScore q = manualScore q
    rw [Nat.zero_max, h]
    exact Nat.max_self _
  have hweq : (workScore q == manualScore q) = true := by simp [h]
  rw [select_and_compile]
  simp only [ENGINE_REGISTRY, List.map_cons, List.map_nil, List.foldl_cons, List.foldl_nil,
    List.filter_cons, List.filter_nil, matchedPats]
  rw [show scoreOf workCfg (pyLower (clean q)).data = workScore q from rfl,
      show scoreOf manualCfg (pyLower (clean q)).data = manualScore q from rfl,
      hmax, hweq]
  simp [workCfg, manualCfg, WORK_HIST_ENGINE_ID, MANUAL_ENGINE_ID]

/-- C1: for every query the selector returns exactly one engine: the one
with the strictly higher pattern-hit count, and on a tie (including the
all-zero case) the first engine with `default_on_tie = true` — `work_hist`,
which is also the first engine in registry order — so the selector never
refuses to classify. -/
theorem select_and_compile_selects_best (q : String) :
    ∃ r, select_and_compile q = some r ∧
      r.engine_key = (if workScore q < manualScore q then "manual" else "work_hist") ∧
      r.engine_id =
        (if workScore q < manualScore q then MANUAL_ENGINE_ID else WORK_HIST_ENGINE_ID) ∧
      r.scores = [("work_hist", workScore q), ("manual", manualScore q)] ∧
      (r.engine_key = "work_hist" → manualScore q ≤ workScore q) ∧
      (r.engine_key = "manual" → workScore q < manualScore q) := by
  rcases Nat.lt_trichotomy (workScore q) (manualScore q) with h | h | h
  · refine ⟨_, select_eq_manual q h, ?_, ?_, rfl, ?_, ?_⟩
    · rw [if_pos h]
    · rw [if_pos h]
    · intro hk
      simp at hk
    · intro _
      exact h
  · refine ⟨_, select_eq_tie q h, ?_, ?_, rfl, ?_, ?_⟩
    · rw [if_neg (by omega)]
    · rw [if_neg (by omega)]
    · intro _
      exact le_of_eq h.symm
    · intro hk
      simp at hk
  · refine ⟨_, select_eq_work_strict q h, ?_, ?_, rfl, ?_, ?_⟩
    · rw [if_neg (by omega)]
    · rw [if_neg (by omega)]
    · intro _
      exact le_of_lt h
    · intro hk
      simp at hk

/-! ### C9: stripping and re-detection -/

/-- C9 counterexample: removing every occurrence of the detected raw span
can juxtapose the surrounding text into a fresh occurrence, which the same
detector then re-detects with the *same* value.  Here
`"2024-01-01 z 2024-01-02024-01-011 w"` detects the single day
`2024-01-01`; stripping removes both occurrences of that substring and the
residual `"z 2024-01-01 w"` re-detects the identical value. -/
theorem strip_redetect_same_value_cex :
    detect_date "2024-01-01 z 2024-01-02024-01-011 w" =
      some ⟨"day", "2024-01-01", "2024-01-01", "2024-01-01"⟩ ∧
    strip_date "2024-01-01 z 2024-01-02024-01-011 w"
        ⟨"day", "2024-01-01", "2024-01-01", "2024-01-01"⟩ = "z 2024-01-01 w" ∧
    detect_date "z 2024-01-01 w" =
      some ⟨"day", "2024-01-01", "2024-01-01", "2024-01-01"⟩ := by
  exact ⟨by decide, by decide, by decide⟩

lemma stripChars_length_le (l : List Char) : (stripChars l).length ≤ l.length := by
  unfold stripChars
  calc ((l.dropWhile isSpaceC).reverse.dropWhile isSpaceC).reverse.length
      = ((l.dropWhile isSpaceC).reverse.dropWhile isSpaceC).length := List.length_reverse _
    _ ≤ (l.dropWhile isSpaceC).reverse.length := (List.dropWhile_suffix _).length_le
    _ = (l.dropWhile isSpaceC).length := List.length_reverse _
    _ ≤ l.length := (List.dropWhile_suffix _).length_le

lemma pyStrip_length_le (s : String) : (pyStrip s).length ≤ s.length :=
  stripChars_length_le s.data

lemma reSubGo_length_le (f : List Char → Option Nat) :
    ∀ (fuel : Nat) (l : List Char), (reSubGo f fuel l).length ≤ l.length := by
  intro fuel
  induction fuel with
  | zero => intro l; cases l <;> simp [reSubGo]
  | succ n ih =>
    intro l
    cases l with
    | nil => simp [reSubGo]
    | cons c cs =>
      rw [reSubGo]
      rcases hf : f (c :: cs) with _ | m
      · simpa using ih cs
      · cases m with
        | zero => simpa using ih cs
        | succ k =>
          calc (reSubGo f n (List.drop k cs)).length
              ≤ (List.drop k cs).length := ih _
            _ ≤ cs.length := by simp
            _ ≤ (c :: cs).length := by simp

/-- If the sub-pattern matches (with positive length) at some position of
the scanned text and the fuel covers the text, the deletion scan shortens
the text strictly. -/
lemma reSubGo_length_lt (f : List Char → Option Nat) :
    ∀ (fuel : Nat) (l : List Char), l.length ≤ fuel →
      (∃ l', l' <:+ l ∧ l' ≠ [] ∧ ∃ n, f l' = some (n + 1)) →
      (reSubGo f fuel l).length < l.length := by
  intro fuel
  induction fuel with
  | zero =>
    intro l hl hex
    obtain ⟨l', hsuf, hne, _⟩ := hex
    interval_cases hlen : l.length
    · have : l = [] := List.eq_nil_of_length_eq_zero hlen
      subst this
      exact absurd (List.suffix_nil.mp hsuf) hne
  | succ n ih =>
    intro l hl hex
    cases l with
    | nil =>
      obtain ⟨l', hsuf, hne, _⟩ := hex
      exact absurd (List.suffix_nil.mp hsuf) hne
    | cons c cs =>
      rw [reSubGo]
      rcases hf : f (c :: cs) with _ | m
      · obtain ⟨l', hsuf, hne, k, hk⟩ := hex
        rcases List.suffix_cons_iff.mp hsuf with heq | hsuf'
        · subst heq
          rw [hf] at hk
          exact absurd hk (by simp)
        · have hlt := ih cs (by simp at hl; omega) ⟨l', hsuf', hne, k, hk⟩
          simpa using Nat.succ_lt_succ hlt
      · cases m with
        | zero =>
          obtain ⟨l', hsuf, hne, k, hk⟩ := hex
          rcases List.suffix_cons_iff.mp hsuf with heq | hsuf'
          · subst heq
            rw [hf] at hk
            exact absurd hk (by simp)
          · have hlt := ih cs (by simp at hl; omega) ⟨l', hsuf', hne, k, hk⟩
            simpa using Nat.succ_lt_succ hlt
        | succ k =>
          calc (reSubGo f n (List.drop k cs)).length
              ≤ (List.drop k cs).length := reSubGo_length_le f n _
            _ ≤ cs.length := by simp
            _ < (c :: cs).length := by simp

/-- Dropping as many characters as the whitespace run skips is exactly
`dropWhile`. -/
lemma drop_length_takeWhile (p : Char → Bool) :
    ∀ l : List Char, l.drop (l.takeWhile p).length = l.dropWhile p := by
  intro l
  induction l with
  | nil => rfl
  | cons c cs ih =>
    by_cases hc : p c = true
    · simp [List.takeWhile_cons, List.dropWhile_cons, hc, ih]
    · simp [List.takeWhile_cons, List.dropWhile_cons, hc]

/-- Inversion of the colon-and-token part of the owner/company pattern. -/
lemma tokenAfterColon_inv {tokC : Char → Bool} {r t : List Char}
    (h : tokenAfterColon tokC r = some t) :
    ∃ c r2, r.dropWhile isSpaceC = c :: r2 ∧ (c = ':' || c = '：') = true ∧
      t = (r2.dropWhile isSpaceC).takeWhile tokC ∧ t ≠ [] := by
  unfold tokenAfterColon at h
  dsimp only at h
  split at h
  · rename_i c r2 heq
    split at h
    · rename_i hcol
      split at h
      · exact absurd h (by simp)
      · rename_i hne
        injection h with h'
        refine ⟨c, r2, heq, by simpa using hcol, h'.symm, ?_⟩
        intro hnil
        exact hne (by rw [h', hnil]; rfl)
    · exact absurd h (by simp)
  · exact absurd h (by simp)

/-- A greedy `\s*` followed by a literal that matches right after the
whitespace run succeeds at the first (longest) attempt. -/
lemma spacesThenLit_of_prefix {t r2 : List Char}
    (hpre : t.isPrefixOf (r2.dropWhile isSpaceC) = true) :
    spacesThenLit t r2 = some ((r2.takeWhile isSpaceC).length + t.length) := by
  unfold spacesThenLit
  rcases hk : (r2.takeWhile isSpaceC).length with _ | k
  · rw [spacesThenLitGo]
    have hr : r2.dropWhile isSpaceC = r2 := by
      rw [← drop_length_takeWhile isSpaceC r2, hk, List.drop_zero]
    rw [hr] at hpre
    rw [if_pos hpre]
    simp
  · rw [spacesThenLitGo]
    have hd : r2.drop (k + 1) = r2.dropWhile isSpaceC := by
      rw [← hk, drop_length_takeWhile]
    rw [hd, if_pos hpre]

/-- If the detector pattern (keyword, colon, token) matches at the head of
`l` capturing `t`, the corresponding stripper pattern (keyword, colon, the
literal `t`) matches at the head of `l` with positive length. -/
lemma stripMatchLen_fires (kw1 kw2 : List Char) (tokC : Char → Bool) (l t : List Char)
    (h : (if kw1.isPrefixOf l then tokenAfterColon tokC (l.drop kw1.length)
          else if kw2.isPrefixOf l then tokenAfterColon tokC (l.drop kw2.length)
          else none) = some t) :
    ∃ n, stripMatchLen kw1 kw2 t l = some (n + 1) := by
  by_cases h1 : kw1.isPrefixOf l = true
  · rw [if_pos h1] at h
    obtain ⟨c, r2, heq, hcol, ht, _⟩ := tokenAfterColon_inv h
    have hpre : t.isPrefixOf (r2.dropWhile isSpaceC) = true := by
      rw [List.isPrefixOf_iff_prefix, ht]
      exact List.takeWhile_prefix _
    refine ⟨kw1.length + ((l.drop kw1.length).takeWhile isSpaceC).length +
      (r2.takeWhile isSpaceC).length + t.length, ?_⟩
    unfold stripMatchLen
    rw [if_pos h1]
    dsimp only
    rw [heq]
    dsimp only
    rw [if_pos hcol, spacesThenLit_of_prefix hpre]
    simp only [Option.map_some']
    congr 1
    omega
  · rw [if_neg (by simp [h1])] at h
    by_cases h2 : kw2.isPrefixOf l = true
    · rw [if_pos h2] at h
      obtain ⟨c, r2, heq, hcol, ht, _⟩ := tokenAfterColon_inv h
      have hpre : t.isPrefixOf (r2.dropWhile isSpaceC) = true := by
        rw [List.isPrefixOf_iff_prefix, ht]
        exact List.takeWhile_prefix _
      refine ⟨kw2.length + ((l.drop kw2.length).takeWhile isSpaceC).length +
        (r2.takeWhile isSpaceC).length + t.length, ?_⟩
      unfold stripMatchLen
      rw [if_neg (by simp [h1]), if_pos h2]
      dsimp only
      rw [heq]
      dsimp only
      rw [if_pos hcol, spacesThenLit_of_prefix hpre]
      simp only [Option.map_some']
      congr 1
      omega
    · rw [if_neg (by simp [h2])] at h
      exact absurd h (by simp)

/-- From a successful owner detection, the matching position and token. -/
lemma detect_owner_inv {q v : String} (h : detect_owner q = some v) :
    ∃ l', l' <:+ q.data ∧ ownerAt l' = some v.data := by
  unfold detect_owner at h
  rcases hs : searchPos ownerAt q.data with _ | t <;> rw [hs] at h
  · exact absurd h (by simp)
  · obtain ⟨l', hsuf, hAt⟩ := searchPos_some _ _ _ hs
    obtain ⟨_, hall⟩ := ownerAt_some hAt
    have hv : v = ⟨t⟩ := by
      have h' : some (pyStrip ⟨t⟩) = some v := by simpa using h
      injection h' with h''
      rw [← h'', pyStrip_of_no_space (fun c hc => isOwnerTokC_not_space (hall c hc))]
    subst hv
    exact ⟨l', hsuf, hAt⟩

lemma detect_company_inv {q v : String} (h : detect_company q = some v) :
    ∃ l', l' <:+ q.data ∧ companyAt l' = some v.data := by
  unfold detect_company at h
  rcases hs : searchPos companyAt q.data with _ | t <;> rw [hs] at h
  · exact absurd h (by simp)
  · obtain ⟨l', hsuf, hAt⟩ := searchPos_some _ _ _ hs
    obtain ⟨_, hall⟩ := companyAt_some hAt
    have hv : v = ⟨t⟩ := by
      have h' : some (pyStrip ⟨t⟩) = some v := by simpa using h
      injection h' with h''
      rw [← h'', pyStrip_of_no_space (fun c hc => isCompanyTokC_not_space (hall c hc))]
    subst hv
    exact ⟨l', hsuf, hAt⟩

/-- `_strip_owner` with a detected value strictly shortens the text. -/
lemma strip_owner_shortens {q v : String} (h : detect_owner q = some v) :
    (strip_owner q v).length < q.length := by
  obtain ⟨l', hsuf, hAt⟩ := detect_owner_inv h
  have hl'ne : l' ≠ [] := by
    intro he
    subst he
    rw [show ownerAt [] = none from rfl] at hAt
    exact absurd hAt (by simp)
  obtain ⟨n, hfire⟩ := stripMatchLen_fires ['담', '당', '자'] ['작', '성', '자']
    isOwnerTokC l' v.data hAt
  show (pyStrip ⟨reSubGo _ q.data.length q.data⟩).length < q.length
  calc (pyStrip ⟨reSubGo (stripMatchLen ['담', '당', '자'] ['작', '성', '자'] v.data)
          q.data.length q.data⟩).length
      ≤ (reSubGo (stripMatchLen ['담', '당', '자'] ['작', '성', '자'] v.data)
          q.data.length q.data).length := pyStrip_length_le _
    _ < q.data.length := reSubGo_length_lt _ q.data.length q.data le_rfl
        ⟨l', hsuf, hl'ne, n, hfire⟩

/-- `_strip_company` with a detected value strictly shortens the text. -/
lemma strip_company_shortens {q v : String} (h : detect_company q = some v) :
    (strip_company q v).length < q.length := by
  obtain ⟨l', hsuf, hAt⟩ := detect_company_inv h
  have hl'ne : l' ≠ [] := by
    intro he
    subst he
    rw [show companyAt [] = none from rfl] at hAt
    exact absurd hAt (by simp)
  obtain ⟨n, hfire⟩ := stripMatchLen_fires ['거', '래', '처'] ['회', '사']
    isCompanyTokC l' v.data hAt
  show (pyStrip ⟨reSubGo _ q.data.length q.data⟩).length < q.length
  calc (pyStrip ⟨reSubGo (stripMatchLen ['거', '래', '처'] ['회', '사'] v.data)
          q.data.length q.data⟩).length
      ≤ (reSubGo (stripMatchLen ['거', '래', '처'] ['회', '사'] v.data)
          q.data.length q.data).length := pyStrip_length_le _
    _ < q.data.length := reSubGo_length_lt _ q.data.length q.data le_rfl
        ⟨l', hsuf, hl'ne, n, hfire⟩

/-- The ISO matcher consumes exactly its returned (non-empty) span. -/
lemma isoAt_decomp {l s rest : List Char} (h : isoAt l = some (s, rest)) :
    l = s ++ rest ∧ s ≠ [] := by
  unfold isoAt at h
  split at h
  · split at h
    · simp only [Option.some.injEq, Prod.mk.injEq] at h
      obtain ⟨h1, h2⟩ := h
      subst h1
      subst h2
      exact ⟨rfl, by simp⟩
    · exact absurd h (by simp)
  · exact absurd h (by simp)

/-- The connector matcher consumes exactly its returned non-empty span. -/
lemma connAt_decomp {l conn r : List Char} (h : connAt l = some (conn, r)) :
    l = conn ++ r ∧ conn ≠ [] := by
  unfold connAt at h
  split at h <;>
    try (simp only [Option.some.injEq, Prod.mk.injEq] at h
         obtain ⟨h1, h2⟩ := h
         subst h1
         subst h2
         exact ⟨rfl, by simp⟩)
  · split at h
    · simp only [Option.some.injEq, Prod.mk.injEq] at h
      obtain ⟨h1, h2⟩ := h
      subst h1
      subst h2
      exact ⟨rfl, by simp⟩
    · split at h
      · simp only [Option.some.injEq, Prod.mk.injEq] at h
        obtain ⟨h1, h2⟩ := h
        subst h1
        subst h2
        exact ⟨rfl, by simp⟩
      · exact absurd h (by simp)
  · exact absurd h (by simp)

/-- The raw span returned by the range rule is a non-empty prefix of the
text at the match position. -/
lemma rangeAt_raw {prev : Option Char} {l s e raw : List Char}
    (h : rangeAt prev l = some (s, e, raw)) : raw ≠ [] ∧ raw <+: l := by
  unfold rangeAt at h
  by_cases hb : boundaryB prev l.head? = true
  case neg => rw [if_neg hb] at h; exact absurd h (by simp)
  rw [if_pos hb] at h
  rcases hIso : isoAt l with _ | ⟨s', r1⟩ <;> rw [hIso] at h <;> dsimp only at h
  · exact absurd h (by simp)
  obtain ⟨hl1, hs'ne⟩ := isoAt_decomp hIso
  by_cases hw : wordOpt r1.head? = true
  case pos => rw [if_pos hw] at h; exact absurd h (by simp)
  rw [if_neg hw] at h
  simp only [spanSpaces] at h
  rcases hConn : connAt (r1.dropWhile isSpaceC) with _ | ⟨conn, r3⟩ <;> rw [hConn] at h <;>
    dsimp only at h
  · exact absurd h (by simp)
  obtain ⟨hr2, hconnne⟩ := connAt_decomp hConn
  by_cases hb2 : boundaryB ((r3.takeWhile isSpaceC).getLast?.orElse
      (fun _ => conn.getLast?)) (r3.dropWhile isSpaceC).head? = true
  case neg => rw [if_neg hb2] at h; exact absurd h (by simp)
  rw [if_pos hb2] at h
  rcases hIso2 : isoAt (r3.dropWhile isSpaceC) with _ | ⟨e', r5⟩ <;> rw [hIso2] at h <;>
    dsimp only at h
  · exact absurd h (by simp)
  obtain ⟨hr4, he'ne⟩ := isoAt_decomp hIso2
  by_cases hw2 : wordOpt r5.head? = true
  case pos => rw [if_pos hw2] at h; exact absurd h (by simp)
  rw [if_neg hw2] at h
  simp only [Option.some.injEq, Prod.mk.injEq] at h
  obtain ⟨hs, he, hraw⟩ := h
  subst hs
  subst he
  subst hraw
  have hkk : ∃ u, (if ['까', '지'].isPrefixOf (r5.dropWhile isSpaceC) then ['까', '지']
      else ([] : List Char)) ++ u = r5.dropWhile isSpaceC := by
    by_cases hk : ['까', '지'].isPrefixOf (r5.dropWhile isSpaceC) = true
    · rw [if_pos hk]
      exact List.isPrefixOf_iff_prefix.mp hk
    · rw [if_neg hk]
      exact ⟨r5.dropWhile isSpaceC, by simp⟩
  obtain ⟨u, hu⟩ := hkk
  constructor
  · intro habs
    rw [List.append_eq_nil] at habs
    obtain ⟨habs2, -⟩ := habs
    rw [List.append_eq_nil] at habs2
    obtain ⟨habs3, -⟩ := habs2
    rw [List.append_eq_nil] at habs3
    obtain ⟨habs4, -⟩ := habs3
    rw [List.append_eq_nil] at habs4
    obtain ⟨habs5, -⟩ := habs4
    rw [List.append_eq_nil] at habs5
    obtain ⟨habs6, -⟩ := habs5
    rw [List.append_eq_nil] at habs6
    exact hs'ne habs6.1
  · refine ⟨u, ?_⟩
    have htw1 := List.takeWhile_append_dropWhile (p := isSpaceC) (l := r1)
    have htw2 := List.takeWhile_append_dropWhile (p := isSpaceC) (l := r3)
    have htw3 := List.takeWhile_append_dropWhile (p := isSpaceC) (l := r5)
    conv_rhs => rw [hl1, ← htw1, hr2, ← htw2, hr4, ← htw3, ← hu]
    simp [List.append_assoc]

/-- The span returned by the single-ISO rule is a non-empty prefix of the
text at the match position. -/
lemma singleAt_raw {prev : Option Char} {l s : List Char} (h : singleAt prev l = some s) :
    s ≠ [] ∧ s <+: l := by
  unfold singleAt at h
  by_cases hb : boundaryB prev l.head? = true
  case neg => rw [if_neg hb] at h; exact absurd h (by simp)
  rw [if_pos hb] at h
  rcases hIso : isoAt l with _ | ⟨s', r1⟩ <;> rw [hIso] at h <;> dsimp only at h
  · exact absurd h (by simp)
  obtain ⟨hl, hne⟩ := isoAt_decomp hIso
  by_cases hw : wordOpt r1.head? = true
  case pos => rw [if_pos hw] at h; exact absurd h (by simp)
  rw [if_neg hw] at h
  injection h with h'
  subst h'
  exact ⟨hne, r1, hl.symm⟩

/-- Whatever the month alternation returns came from its continuation `k`
applied to a non-empty consumed span and the remainder. -/
lemma monthAlt_inv {α : Type} {k : Nat → List Char → List Char → Option α}
    {r : List Char} {v : α} (h : monthAlt k r = some v) :
    ∃ mo mchars r4, r = mchars ++ r4 ∧ mchars ≠ [] ∧ k mo mchars r4 = some v := by
  unfold monthAlt at h
  split at h
  · rename_i x r4
    by_cases hx : ('0' ≤ x && x ≤ '2') = true
    · rw [if_pos hx] at h
      rcases hk : k (10 + dval x) ['1', x] r4 with _ | w <;> rw [hk] at h <;>
        simp only [Option.orElse] at h
      · rw [if_pos (by decide)] at h
        exact ⟨dval '1', ['1'], x :: r4, rfl, by simp, h⟩
      · injection h with h'
        subst h'
        exact ⟨10 + dval x, ['1', x], r4, rfl, by simp, hk⟩
    · rw [if_neg hx] at h
      simp only [Option.orElse] at h
      rw [if_pos (by decide)] at h
      exact ⟨dval '1', ['1'], x :: r4, rfl, by simp, h⟩
  · simp only [Option.orElse] at h
    split at h
    · rename_i a r4 hno
      by_cases ha : ('1' ≤ a && a ≤ '9') = true
      · rw [if_pos ha] at h
        exact ⟨dval a, [a], r4, rfl, by simp, h⟩
      · rw [if_neg ha] at h
        exact absurd h (by simp)
    · exact absurd h (by simp)

/-- The `\s*일` tail consumes exactly its returned non-empty span. -/
lemma ilTail_decomp {r t rest : List Char} (h : ilTail r = some (t, rest)) :
    r = t ++ rest ∧ t ≠ [] := by
  unfold ilTail at h
  simp only [spanSpaces] at h
  split at h
  · rename_i r2 heq
    simp only [Option.some.injEq, Prod.mk.injEq] at h
    obtain ⟨h1, h2⟩ := h
    subst h1
    subst h2
    constructor
    · conv_lhs => rw [← List.takeWhile_append_dropWhile (p := isSpaceC) (l := r), heq]
      simp [List.append_assoc]
    · simp
  · exact absurd h (by simp)

/-- The day-`일` group consumes exactly its returned non-empty span. -/
lemma dayIl_decomp {r : List Char} {d : Nat} {dchars rest : List Char}
    (h : dayIl r = some (d, dchars, rest)) : r = dchars ++ rest ∧ dchars ≠ [] := by
  unfold dayIl at h
  dsimp only at h
  split at h
  · rename_i x r4
    by_cases hx : (x = '0' || x = '1') = true
    · rw [if_pos hx] at h
      rcases hIl : ilTail r4 with _ | ⟨t, r6⟩ <;> rw [hIl] at h <;>
        simp only [Option.map_none', Option.map_some', Option.orElse] at h
      · -- alt1 matched shape but its tail failed; alt2 cannot fire on '3',
        -- so alt3 retries with the one-digit branch on x :: r4.
        rw [if_neg (by simp)] at h
        simp only [Option.orElse] at h
        rw [if_pos (by decide)] at h
        rcases hIl3 : ilTail (x :: r4) with _ | ⟨t, r6⟩ <;> rw [hIl3] at h <;>
          simp only [Option.map_none', Option.map_some'] at h
        · exact absurd h (by simp)
        · simp only [Option.some.injEq, Prod.mk.injEq] at h
          obtain ⟨-, h2, h3⟩ := h
          subst h2
          subst h3
          obtain ⟨hr4, -⟩ := ilTail_decomp hIl3
          exact ⟨by simp [hr4], by simp⟩
      · simp only [Option.some.injEq, Prod.mk.injEq] at h
        obtain ⟨-, h2, h3⟩ := h
        subst h2
        subst h3
        obtain ⟨hr4, -⟩ := ilTail_decomp hIl
        exact ⟨by simp [hr4], by simp⟩
    · rw [if_neg hx] at h
      simp only [Option.orElse] at h
      rw [if_neg (by simp)] at h
      simp only [Option.orElse] at h
      rw [if_pos (by decide)] at h
      rcases hIl3 : ilTail (x :: r4) with _ | ⟨t, r6⟩ <;> rw [hIl3] at h <;>
        simp only [Option.map_none', Option.map_some'] at h
      · exact absurd h (by simp)
      · simp only [Option.some.injEq, Prod.mk.injEq] at h
        obtain ⟨-, h2, h3⟩ := h
        subst h2
        subst h3
        obtain ⟨hr4, -⟩ := ilTail_decomp hIl3
        exact ⟨by simp [hr4], by simp⟩
  · simp only [Option.orElse] at h
    split at h
    · -- the second alternative produced a value
      rename_i w hno
      injection h with h'
      subst h'
      split at hno
      · rename_i a x r4 hnc
        by_cases hax : ((a = '1' || a = '2') && isDigitC x) = true
        · rw [if_pos hax] at hno
          rcases hIl : ilTail r4 with _ | ⟨t, r6⟩ <;> rw [hIl] at hno <;>
            simp only [Option.map_none', Option.map_some'] at hno
          · exact absurd hno (by simp)
          · simp only [Option.some.injEq, Prod.mk.injEq] at hno
            obtain ⟨-, h2, h3⟩ := hno
            subst h2
            subst h3
            obtain ⟨hr4, -⟩ := ilTail_decomp hIl
            exact ⟨by simp [hr4], by simp⟩
        · rw [if_neg hax] at hno
          exact absurd hno (by simp)
      · exact absurd hno (by simp)
    · -- the second alternative failed; the third fires
      rename_i hno
      split at h
      · rename_i a r4 hnc
        dsimp only at h
        by_cases ha9 : ('1' ≤ a && a ≤ '9') = true
        · rw [if_pos ha9] at h
          rcases hIl : ilTail r4 with _ | ⟨t, r6⟩ <;> rw [hIl] at h <;>
            simp only [Option.map_none', Option.map_some'] at h
          · exact absurd h (by simp)
          · simp only [Option.some.injEq, Prod.mk.injEq] at h
            obtain ⟨-, h2, h3⟩ := h
            subst h2
            subst h3
            obtain ⟨hr4, -⟩ := ilTail_decomp hIl
            exact ⟨by simp [hr4], by simp⟩
        · rw [if_neg ha9] at h
          exact absurd h (by simp)
      · exact absurd h (by simp)

/-- The raw span returned by localized rule 3 is a non-empty prefix of the
text at the match position. -/
lemma m1At_raw {l : List Char} {y mo d : Nat} {raw : List Char}
    (h : m1At l = some (y, mo, d, raw)) : raw ≠ [] ∧ raw <+: l := by
  unfold m1At at h
  split at h
  · rename_i y1 y2 r
    by_cases hdig : (isDigitC y1 && isDigitC y2) = true
    case neg => rw [if_neg hdig] at h; exact absurd h (by simp)
    rw [if_pos hdig] at h
    simp only [spanSpaces] at h
    split at h
    · rename_i r2 heq1
      obtain ⟨mo', mchars, r4, hsp, hmne, hK⟩ := monthAlt_inv h
      split at hK
      · rename_i r6 heq2
        rcases hDay : dayIl (List.dropWhile isSpaceC r6) with _ | ⟨dd, dchars, r8⟩ <;>
          rw [hDay] at hK <;>
          simp only [Option.map_none', Option.map_some'] at hK
        · exact absurd hK (by simp)
        · simp only [Option.some.injEq, Prod.mk.injEq] at hK
          obtain ⟨-, -, -, hraw⟩ := hK
          subst hraw
          obtain ⟨hr6, hdne⟩ := dayIl_decomp hDay
          constructor
          · simp
          · refine ⟨r8, ?_⟩
            have htw1 := List.takeWhile_append_dropWhile (p := isSpaceC) (l := r)
            have htw2 := List.takeWhile_append_dropWhile (p := isSpaceC) (l := r2)
            have htw4 := List.takeWhile_append_dropWhile (p := isSpaceC) (l := r4)
            have htw6 := List.takeWhile_append_dropWhile (p := isSpaceC) (l := r6)
            conv_rhs => rw [← htw1, heq1, ← htw2, hsp, ← htw4, heq2, ← htw6, hr6]
            simp [List.append_assoc]
      · exact absurd hK (by simp)
    · exact absurd h (by simp)
  · exact absurd h (by simp)

/-- The raw span returned by localized rule 4 is a non-empty prefix of the
text at the match position. -/
lemma m2At_raw {l : List Char} {y mo : Nat} {raw : List Char}
    (h : m2At l = some (y, mo, raw)) : raw ≠ [] ∧ raw <+: l := by
  unfold m2At at h
  split at h
  · rename_i y1 y2 r
    by_cases hdig : (isDigitC y1 && isDigitC y2) = true
    case neg => rw [if_neg hdig] at h; exact absurd h (by simp)
    rw [if_pos hdig] at h
    simp only [spanSpaces] at h
    split at h
    · rename_i r2 heq1
      obtain ⟨mo', mchars, r4, hsp, hmne, hK⟩ := monthAlt_inv h
      split at hK
      · rename_i r6 heq2
        by_cases hda : dayAhead r6 = true
        case pos => rw [if_pos hda] at hK; exact absurd hK (by simp)
        rw [if_neg hda] at hK
        simp only [Option.some.injEq, Prod.mk.injEq] at hK
        obtain ⟨-, -, hraw⟩ := hK
        subst hraw
        constructor
        · simp
        · refine ⟨r6, ?_⟩
          have htw1 := List.takeWhile_append_dropWhile (p := isSpaceC) (l := r)
          have htw2 := List.takeWhile_append_dropWhile (p := isSpaceC) (l := r2)
          have htw4 := List.takeWhile_append_dropWhile (p := isSpaceC) (l := r4)
          conv_rhs => rw [← htw1, heq1, ← htw2, hsp, ← htw4, heq2]
          simp [List.append_assoc]
      · exact absurd hK (by simp)
    · exact absurd h (by simp)
  · exact absurd h (by simp)

/-- Deleting occurrences never lengthens the text. -/
lemma pyReplaceGo_del_length_le (pat : List Char) :
    ∀ (fuel : Nat) (l : List Char), (pyReplaceGo pat [] fuel l).length ≤ l.length := by
  intro fuel
  induction fuel with
  | zero =>
    intro l
    cases l with
    | nil => simp [pyReplaceGo]
    | cons c cs => simp [pyReplaceGo]
  | succ n ih =>
    intro l
    cases l with
    | nil => simp [pyReplaceGo]
    | cons c cs =>
      rw [pyReplaceGo]
      split
      · calc ([] ++ pyReplaceGo pat [] n (List.drop (pat.length - 1) cs)).length
            = (pyReplaceGo pat [] n (List.drop (pat.length - 1) cs)).length := by simp
          _ ≤ (List.drop (pat.length - 1) cs).length := ih _
          _ ≤ cs.length := by rw [List.length_drop]; omega
          _ ≤ (c :: cs).length := by simp
      · simpa using Nat.succ_le_succ (ih cs)

/-- Deleting a pattern that occurs in the text strictly shortens it. -/
lemma pyReplaceGo_del_length_lt (pat : List Char) (hpat : pat ≠ []) :
    ∀ (fuel : Nat) (l : List Char), l.length ≤ fuel →
      (∃ l', l' <:+ l ∧ pat.isPrefixOf l' = true) →
      (pyReplaceGo pat [] fuel l).length < l.length := by
  intro fuel
  induction fuel with
  | zero =>
    intro l hl hex
    obtain ⟨l', hsuf, hpre⟩ := hex
    have hl0 : l = [] := List.eq_nil_of_length_eq_zero (Nat.le_zero.mp hl)
    subst hl0
    have := List.suffix_nil.mp hsuf
    subst this
    exact absurd (List.prefix_nil.mp (List.isPrefixOf_iff_prefix.mp hpre)) hpat
  | succ n ih =>
    intro l hl hex
    cases l with
    | nil =>
      obtain ⟨l', hsuf, hpre⟩ := hex
      have := List.suffix_nil.mp hsuf
      subst this
      exact absurd (List.prefix_nil.mp (List.isPrefixOf_iff_prefix.mp hpre)) hpat
    | cons c cs =>
      rw [pyReplaceGo]
      split
      · have h1 : (pyReplaceGo pat [] n (List.drop (pat.length - 1) cs)).length ≤
            (List.drop (pat.length - 1) cs).length := pyReplaceGo_del_length_le _ _ _
        rw [List.length_drop] at h1
        simp only [List.nil_append, List.length_cons]
        omega
      · rename_i hc
        obtain ⟨l', hsuf, hpre⟩ := hex
        rcases List.suffix_cons_iff.mp hsuf with heq | hsuf'
        · subst heq
          exact absurd ⟨hpat, hpre⟩ hc
        · have := ih cs (by simpa using hl) ⟨l', hsuf', hpre⟩
          simpa using Nat.succ_lt_succ this

/-- The stripped text is an infix of the original. -/
lemma stripChars_infix (l : List Char) : stripChars l <:+: l := by
  unfold stripChars
  have h1 : l.dropWhile isSpaceC <:+ l := List.dropWhile_suffix _
  have h2' : (l.dropWhile isSpaceC).reverse.dropWhile isSpaceC <:+
      (l.dropWhile isSpaceC).reverse := List.dropWhile_suffix _
  have h2 : ((l.dropWhile isSpaceC).reverse.dropWhile isSpaceC).reverse <+:
      l.dropWhile isSpaceC := by
    have := List.reverse_prefix.mpr h2'
    rwa [List.reverse_reverse] at this
  exact h2.isInfix.trans h1.isInfix

/-- Whenever `_detect_date` returns a value, the raw matched span is a
non-empty infix of the original query text. -/
lemma detect_date_raw_occurs {q : String} {v : DateVal} (h : detect_date q = some v) :
    v.raw.data ≠ [] ∧ v.raw.data <:+: q.data := by
  have hcl : (clean q).data <:+: q.data := stripChars_infix q.data
  rw [detect_date] at h
  rcases h1 : searchPosB rangeAt none (clean q).data with _ | ⟨s, e, raw⟩ <;> rw [h1] at h
  · rcases h2 : searchPosB singleAt none (clean q).data with _ | iso <;> rw [h2] at h
    · rcases h3 : searchPos m1At (clean q).data with _ | ⟨y, mo, d, raw⟩ <;> rw [h3] at h
      · rcases h4 : searchPos m2At (clean q).data with _ | ⟨y, mo, raw⟩ <;> rw [h4] at h
        · exact absurd h (by simp)
        · simp only [Option.some.injEq] at h
          subst h
          obtain ⟨l', hsuf, hAt⟩ := searchPos_some m2At _ _ h4
          obtain ⟨hne, hpre⟩ := m2At_raw hAt
          exact ⟨hne, (hpre.isInfix.trans hsuf.isInfix).trans hcl⟩
      · simp only [Option.some.injEq] at h
        subst h
        obtain ⟨l', hsuf, hAt⟩ := searchPos_some m1At _ _ h3
        obtain ⟨hne, hpre⟩ := m1At_raw hAt
        exact ⟨hne, (hpre.isInfix.trans hsuf.isInfix).trans hcl⟩
    · simp only [Option.some.injEq] at h
      subst h
      obtain ⟨pv, l', hsuf, hAt⟩ := searchPosB_some singleAt _ _ _ h2
      obtain ⟨hne, hpre⟩ := singleAt_raw hAt
      exact ⟨hne, (hpre.isInfix.trans hsuf.isInfix).trans hcl⟩
  · simp only [Option.some.injEq] at h
    subst h
    obtain ⟨pv, l', hsuf, hAt⟩ := searchPosB_some rangeAt _ _ _ h1
    obtain ⟨hne, hpre⟩ := rangeAt_raw hAt
    exact ⟨hne, (hpre.isInfix.trans hsuf.isInfix).trans hcl⟩

/-- `_strip_date` with a detected value strictly shortens the text. -/
lemma strip_date_shortens {q : String} {v : DateVal} (h : detect_date q = some v) :
    (strip_date q v).length < q.length := by
  obtain ⟨hne, hinf⟩ := detect_date_raw_occurs h
  have hraw : v.raw ≠ "" := by
    intro he
    exact hne (by rw [he])
  unfold strip_date
  rw [if_pos hraw]
  obtain ⟨s, u, hsu⟩ := hinf
  show (pyStrip ⟨pyReplaceGo v.raw.data [] q.data.length q.data⟩).length < q.length
  calc (pyStrip ⟨pyReplaceGo v.raw.data [] q.data.length q.data⟩).length
      ≤ (pyReplaceGo v.raw.data [] q.data.length q.data).length := pyStrip_length_le _
    _ < q.data.length := pyReplaceGo_del_length_lt v.raw.data hne q.data.length q.data
        le_rfl ⟨v.raw.data ++ u, ⟨s, by rw [← hsu]; simp [List.append_assoc]⟩,
          List.isPrefixOf_iff_prefix.mpr ⟨u, rfl⟩⟩

/-- Witness for `detector_token_classes`. -/
theorem detector_token_classes_witness :
    detect_owner "담당자: 홍길동" = some "홍길동" ∧ ("홍길동" : String) ≠ "" ∧
    build_owner_filter "홍길동" = "owner: ANY(\"홍길동\")" ∧
    detect_company "회사: ABC" = some "ABC" ∧
    build_company_filter "ABC" = "company: ANY(\"ABC\")" := by
  refine ⟨by decide, ?_, ?_, by decide, ?_⟩
  · exact ((detector_token_classes "담당자: 홍길동").1 "홍길동" (by decide)).1
  · exact ((detector_token_classes "담당자: 홍길동").1 "홍길동" (by decide)).2.2.2
  · exact ((detector_token_classes "회사: ABC").2 "ABC" (by decide)).2.2.2

/-- C9 (amended): the spec's example holds — `"담당자: 홍길동 방문"` compiles
owner = `"홍길동"`, the residual query text `"방문"` no longer contains
`"담당자: 홍길동"`, and the owner detector finds nothing in the residual —
and every successful strip (date, owner or company) strictly shortens the
text, so repeated stripping terminates; but re-running a detector on the
stripped text can re-detect the same value when removal juxtaposes the
surrounding fragments into a new match. -/
theorem strip_example_and_stripper_shortens :
    ((compile_with_rules workCfg "담당자: 홍길동 방문").matched_fields =
        [("owner", DetVal.strV "홍길동")] ∧
      (compile_with_rules workCfg "담당자: 홍길동 방문").query_text = "방문" ∧
      isInfixL "담당자: 홍길동".data "방문".data = false ∧
      detect_owner "방문" = none) ∧
    (∀ (q : String) (v : DateVal), detect_date q = some v →
      (strip_date q v).length < q.length) ∧
    (∀ (q v : String), detect_owner q = some v →
      (strip_owner q v).length < q.length) ∧
    (∀ (q v : String), detect_company q = some v →
      (strip_company q v).length < q.length) := by
  refine ⟨⟨by decide, by decide, by decide, by decide⟩, ?_, ?_, ?_⟩
  · intro q v h
    exact strip_date_shortens h
  · intro q v h
    exact strip_owner_shortens h
  · intro q v h
    exact strip_company_shortens h

/-- Witness for `strip_example_and_stripper_shortens`. -/
theorem strip_example_and_stripper_shortens_witness :
    detect_owner "담당자: 김철수" = some "김철수" ∧
    (strip_owner "담당자: 김철수" "김철수").length <
      ("담당자: 김철수" : String).length :=
  ⟨by decide,
   strip_example_and_stripper_shortens.2.2.1 "담당자: 김철수" "김철수" (by decide)⟩

end SearchTools
